import Mathlib

/-!
Shallow embedding of `src/graph_generator.py` (Zipper-Server).

The program walks a Java source tree, lets a parser collaborator turn each
file into (package, imports, type declarations), accumulates node and edge
records into two append-only lists guarded by per-kind `seen` sets, then
reassembles the flat edge list into a containment forest and either writes a
single aggregate JSON file or per-module JSON files.

Python dict/set/list operations are embedded over `List`:
  * the `seen` sets are `List String` with membership tests;
  * `node_map = {n['id']: dict(n, children=[]) for n in nodes}` keeps, for
    each id, the *last* record (dict comprehension overwrite) while the key
    order is first-occurrence order;
  * `parent[tgt] = src` is last-writer-wins, modelled by `parentOf`;
  * the per-node `children` lists are recovered from the ordered list of
    valid contains pairs (`childrenOf`).
Paths: the traversal visits files strictly below the (absolutized) scan
root, so a visited file's path is `src_dir ++ "/" ++ rel` with `rel` the
walk-relative path; `os.path.relpath` on such a path returns `rel`.
-/

namespace GraphGen

/-- A node record as appended to the `nodes` list (a Python dict; absent
keys are `none`).  `type'` is the JSON key `"type"`; `cls` is the JSON key
`"class"`. -/
structure Node where
  id : String
  name : String
  type' : String
  path : Option String := none
  package : Option String := none
  file : Option String := none
  extends_attr : Option (String ⊕ List String) := none
  implements_attr : Option (List String) := none
  datatype : Option String := none
  cls : Option String := none
  signature : Option String := none
  return_type : Option String := none
deriving DecidableEq, Repr

/-- An edge record `{"source": .., "target": .., "type": ..}`. -/
structure Edge where
  source : String
  target : String
  type' : String
deriving DecidableEq, Repr

/-- The five per-kind dedup sets of `seen` (line 30 of the source). -/
structure Seen where
  package : List String := []
  file : List String := []
  cls : List String := []
  method : List String := []
  field : List String := []
deriving DecidableEq, Repr

/-- The accumulated global state: the two append-only collections plus the
registry sets. -/
structure GState where
  nodes : List Node := []
  edges : List Edge := []
  seen : Seen := {}
deriving DecidableEq, Repr

/-- One method invocation surfaced by `m.filter(MethodInvocation)`:
`inv.qualifier` (`""` models a falsy/absent qualifier) and `inv.member`. -/
structure Invocation where
  qualifier : String
  member : String
deriving DecidableEq, Repr

/-- A parsed method declaration.  `body = none` models a falsy `m.body`;
`body = some invs` carries the full enumeration of invocation expressions
anywhere inside the body. -/
structure MethodDecl where
  name : String
  params : List String
  return_type : Option String
  body : Option (List Invocation)
deriving DecidableEq, Repr

/-- A parsed field declaration: the textual type name and the declared
variable names. -/
structure FieldDecl where
  ftype : String
  declarators : List String
deriving DecidableEq, Repr

/-- One member of a type body; members that are neither field nor method
declarations are skipped by the isinstance checks (lines 101/109). -/
inductive Member where
  | fieldM (f : FieldDecl)
  | methodM (m : MethodDecl)
  | otherM
deriving DecidableEq, Repr

/-- The superclass clause: `ClassDeclaration.extends` is one reference or
absent, `InterfaceDeclaration.extends` is a list (lines 64-68, 76-90). -/
inductive ExtendsClause where
  | noneE
  | singleE (s : String)
  | multiE (l : List String)
deriving DecidableEq, Repr

/-- A top-level class or interface declaration as consumed by `main`. -/
structure TypeDecl where
  name : String
  ext : ExtendsClause
  impls : List String
  body : List Member
deriving DecidableEq, Repr

/-- Outcome of `parse_java_file`: on any exception it yields
`(None, [], [])` (lines 13-19); on success, package (possibly `""`),
the imports, and the filtered type declarations. -/
inductive ParseResult where
  | failure
  | success (pkg : String) (imports : List String) (types : List TypeDecl)
deriving DecidableEq, Repr

/-- One visited `.java` file: its path relative to the scan root (the walk
only visits files strictly under the root) and its parse outcome. -/
structure JavaFile where
  rel : String
  parsed : ParseResult
deriving DecidableEq, Repr

/-- `(pkg, imports, types)` as used by `main`; a failure behaves like
`("", [], [])` there (`None` and `""` are both falsy). -/
def parseTriple : ParseResult → String × List String × List TypeDecl
  | .failure => ("", [], [])
  | .success p i t => (p, i, t)

/-- Last path segment: `fname` for a path produced by `os.path.join(root, fname)`. -/
def lastSeg (s : String) : String :=
  String.mk ((s.toList.reverse.takeWhile (fun c => c ≠ '/')).reverse)

/-- `pkg + "." + name if pkg else name` (lines 61, 79, 86, 94). -/
def qualify (pkg name : String) : String :=
  if pkg = "" then name else pkg ++ "." ++ name

/-- The file node record of lines 43-45. -/
def fileNodeOf (path fname : String) : Node :=
  { id := path, name := fname, type' := "file", path := some path }

/-- Lines 43-45: append the file node once per path. -/
def doFile (path fname : String) (st : GState) : GState :=
  if path ∈ st.seen.file then st
  else { st with nodes := st.nodes ++ [fileNodeOf path fname],
                 seen := { st.seen with file := st.seen.file ++ [path] } }

/-- The package node record of lines 49 and 55. -/
def pkgNodeOf (pkg : String) : Node :=
  { id := pkg, name := pkg, type' := "package" }

/-- The stub node record of lines 81, 88, 96. -/
def stubNodeOf (pkg parent kind : String) : Node :=
  { id := qualify pkg parent, name := parent, type' := kind }

/-- Lines 47-51: package node (once per name) and the package→file
contains edge, only when the package name is truthy. -/
def doPkg (pkg path : String) (st : GState) : GState :=
  if pkg = "" then st
  else
    let st1 :=
      if pkg ∈ st.seen.package then st
      else { st with nodes := st.nodes ++ [pkgNodeOf pkg],
                     seen := { st.seen with package := st.seen.package ++ [pkg] } }
    { st1 with edges := st1.edges ++ [⟨pkg, path, "contains"⟩] }

/-- Lines 53-57: per import path, a package node if unseen and a
file→import edge of kind import (never deduplicated). -/
def doImport (path : String) (st : GState) (imp : String) : GState :=
  let st1 :=
    if imp ∈ st.seen.package then st
    else { st with nodes := st.nodes ++ [pkgNodeOf imp],
                   seen := { st.seen with package := st.seen.package ++ [imp] } }
  { st1 with edges := st1.edges ++ [⟨path, imp, "import"⟩] }

/-- Lines 77-98 (both branches have the same shape): qualify the referenced
simple name with the current package, synthesize a stub node in the shared
class identity space if the id is unseen, and append the inheritance edge. -/
def doStub (pkg fqcn stubKind edgeKind : String) (st : GState) (parent : String) : GState :=
  let pid := qualify pkg parent
  let st1 :=
    if pid ∈ st.seen.cls then st
    else { st with nodes := st.nodes ++ [stubNodeOf pkg parent stubKind],
                   seen := { st.seen with cls := st.seen.cls ++ [pid] } }
  { st1 with edges := st1.edges ++ [⟨fqcn, pid, edgeKind⟩] }

/-- The class entry of lines 63-70: `extends` is carried verbatim (string
or list, only when truthy), `implements` only when non-empty. -/
def classEntry (pkg path : String) (t : TypeDecl) : Node :=
  { id := qualify pkg t.name, name := t.name, type' := "class",
    package := some pkg, file := some path,
    extends_attr :=
      match t.ext with
      | .noneE => none
      | .singleE s => some (Sum.inl s)
      | .multiE l => if l = [] then none else some (Sum.inr l),
    implements_attr := if t.impls = [] then none else some t.impls }

/-- The field node record of line 106. -/
def fieldNodeOf (fqcn : String) (f : FieldDecl) (d : String) : Node :=
  { id := fqcn ++ "." ++ d, name := d, type' := "field",
    datatype := some f.ftype, cls := some fqcn }

/-- `sig = m.name + "(" + ",".join(params) + ")"` (line 111). -/
def methodSig (m : MethodDecl) : String :=
  m.name ++ "(" ++ String.intercalate "," m.params ++ ")"

/-- The method node record of line 114 (`'void'` is the getattr default). -/
def methodNodeOf (fqcn : String) (m : MethodDecl) : Node :=
  { id := fqcn ++ "." ++ methodSig m, name := m.name, type' := "method",
    signature := some (methodSig m), cls := some fqcn,
    return_type := some (m.return_type.getD "void") }

/-- `qual + inv.member` (lines 119-120). -/
def callTarget (inv : Invocation) : String :=
  if inv.qualifier = "" then inv.member else inv.qualifier ++ "." ++ inv.member

/-- Lines 101-108: one field declaration: per declarator, a field node
(deduped) and a class→field contains edge. -/
def doField (fqcn : String) (f : FieldDecl) (st : GState) : GState :=
  f.declarators.foldl (fun st d =>
    let fid := fqcn ++ "." ++ d
    let st1 :=
      if fid ∈ st.seen.field then st
      else { st with nodes := st.nodes ++ [fieldNodeOf fqcn f d],
                     seen := { st.seen with field := st.seen.field ++ [fid] } }
    { st1 with edges := st1.edges ++ [⟨fqcn, fid, "contains"⟩] }) st

/-- Lines 109-121: one method declaration: signature-keyed node (deduped),
class→method contains edge, and one calls edge per invocation when a body
is present. -/
def doMethod (fqcn : String) (m : MethodDecl) (st : GState) : GState :=
  let mid := fqcn ++ "." ++ methodSig m
  let st1 :=
    if mid ∈ st.seen.method then st
    else { st with nodes := st.nodes ++ [methodNodeOf fqcn m],
                   seen := { st.seen with method := st.seen.method ++ [mid] } }
  let st2 := { st1 with edges := st1.edges ++ [⟨fqcn, mid, "contains"⟩] }
  match m.body with
  | none => st2
  | some invs =>
      invs.foldl (fun st inv =>
        { st with edges := st.edges ++ [⟨mid, callTarget inv, "calls"⟩] }) st2

/-- Lines 100-121: one body member (other member kinds are skipped). -/
def doMember (fqcn : String) (st : GState) : Member → GState
  | .fieldM f => doField fqcn f st
  | .methodM m => doMethod fqcn m st
  | .otherM => st

/-- Lines 59-121: one top-level type declaration.  The class node is
appended only if its id is unseen in the shared class space; the file→type
contains edge is appended unconditionally; then extends, implements and
members.  (Looping over an empty list is a no-op, so the source's
truthiness guards around the extends/implements loops are dropped.) -/
def doType (pkg path : String) (st : GState) (t : TypeDecl) : GState :=
  let fqcn := qualify pkg t.name
  let st1 :=
    if fqcn ∈ st.seen.cls then st
    else { st with nodes := st.nodes ++ [classEntry pkg path t],
                   seen := { st.seen with cls := st.seen.cls ++ [fqcn] } }
  let st2 := { st1 with edges := st1.edges ++ [⟨path, fqcn, "contains"⟩] }
  let st3 :=
    match t.ext with
    | .noneE => st2
    | .singleE s => doStub pkg fqcn "class" "extends" st2 s
    | .multiE l => l.foldl (doStub pkg fqcn "class" "extends") st2
  let st4 := t.impls.foldl (doStub pkg fqcn "interface" "implements") st3
  t.body.foldl (doMember fqcn) st4

/-- The body of the traversal loop (lines 40-121) for one visited file. -/
def processFile (srcDir : String) (st : GState) (jf : JavaFile) : GState :=
  let path := srcDir ++ "/" ++ jf.rel
  let fname := lastSeg jf.rel
  let (pkg, imports, types) := parseTriple jf.parsed
  let st1 := doFile path fname st
  let st2 := doPkg pkg path st1
  let st3 := imports.foldl (doImport path) st2
  types.foldl (doType pkg path) st3

/-- The whole accumulation pass: fold the loop body over the visited files
starting from empty collections. -/
def run (srcDir : String) (files : List JavaFile) : GState :=
  files.foldl (processFile srcDir) {}

/-! ### Hierarchy Assembler (lines 122-134) -/

/-- First-occurrence deduplication: the key order of a Python dict built by
comprehension. -/
def firstKeys (l : List String) : List String :=
  l.foldl (fun acc x => if x ∈ acc then acc else acc ++ [x]) []

/-- The keys of `node_map`. -/
def nodeIdsOf (nodes : List Node) : List String :=
  firstKeys (nodes.map (·.id))

/-- `node_map[i]`: a dict comprehension keeps the *last* record for each id. -/
def nodeMapEntry (nodes : List Node) (i : String) : Option Node :=
  (nodes.filter (fun n => n.id = i)).getLast?

/-- `node_map[i]['type']` (with `""` for an absent key, never used on one). -/
def kindOf (nodes : List Node) (i : String) : String :=
  match nodeMapEntry nodes i with
  | some n => n.type'
  | none => ""

/-- The (source, target) pairs of the contains edges whose two endpoints
exist in the node map, in edge order (the loop of lines 125-130). -/
def containsPairs (ids : List String) (edges : List Edge) : List (String × String) :=
  (edges.filter (fun e =>
    e.type' = "contains" ∧ e.source ∈ ids ∧ e.target ∈ ids)).map
    (fun e => (e.source, e.target))

/-- The final `children` list of the node with id `s`: one entry per valid
contains pair out of `s`, in order (line 129 appends, nothing removes). -/
def childrenOf (pairs : List (String × String)) (s : String) : List String :=
  (pairs.filter (fun p => p.1 = s)).map (·.2)

/-- The final `parent` dict entry for `t`: `parent[tgt] = src` overwrites,
so the last valid contains pair targeting `t` wins (line 130). -/
def parentOf (pairs : List (String × String)) (t : String) : Option String :=
  pairs.foldl (fun acc p => if p.2 = t then some p.1 else acc) none

/-- Line 131: the parentless package-kind entries of `node_map`, in key
order. -/
def pkgRoots (nodes : List Node) (edges : List Edge) : List String :=
  let ids := nodeIdsOf nodes
  let pairs := containsPairs ids edges
  ids.filter (fun i => (parentOf pairs i).isNone ∧ kindOf nodes i = "package")

/-- Lines 131-133: roots are the parentless package nodes; if none exist,
all parentless nodes. -/
def rootsOf (nodes : List Node) (edges : List Edge) : List String :=
  let ids := nodeIdsOf nodes
  let pairs := containsPairs ids edges
  let pr := pkgRoots nodes edges
  if pr.isEmpty then ids.filter (fun i => (parentOf pairs i).isNone) else pr

/-- Line 134: the residual relation list (everything but contains, in
order, duplicates preserved). -/
def rels (edges : List Edge) : List Edge :=
  edges.filter (fun e => e.type' ≠ "contains")

/-! ### Module Partitioner (lines 136-220) -/

/-- `s.split(sep)[0]`: the characters before the first separator. -/
def headSeg (sep : Char) (s : String) : String :=
  String.mk (s.toList.takeWhile (fun c => c ≠ sep))

/-- `os.path.relpath(p, srcDir)` for the relevant cases: the traversal and
the builder only ever store absolute paths of the form
`srcDir ++ "/" ++ rel`, for which relpath returns `rel`; for any other
path relpath yields a result starting with `".."` (modelled as `none`). -/
def relUnder (srcDir p : String) : Option String :=
  let r := srcDir.toList ++ ['/']
  if r = p.toList.take r.length then some (String.mk (p.toList.drop r.length))
  else none

/-- Python truthiness of an optional string: `None` and `""` are falsy. -/
def truthy : Option String → Option String
  | some s => if s = "" then none else some s
  | none => none

/-- `node.get('file') or node.get('path')` (line 167). -/
def orTruthy (a b : Option String) : Option String :=
  match truthy a with
  | some s => some s
  | none => truthy b

/-- `_module_id` (lines 144-172): module key of one node record. -/
def module_id (srcDir : String) (n : Node) : String :=
  if n.type' = "package" then headSeg '.' n.id
  else if n.type' = "file" then
    match relUnder srcDir n.id with
    | some rel => headSeg '/' rel
    | none => "root"
  else
    match truthy n.package with
    | some pkg => headSeg '.' pkg
    | none =>
      match orTruthy n.file n.path with
      | some fpath =>
        match relUnder srcDir fpath with
        | some rel => headSeg '/' rel
        | none => ".."
      | none => "root"

/-- The module keys, in first-appearance order (`top_pkg_map` insertion,
lines 175-178). -/
def moduleKeys (srcDir : String) (nodes : List Node) : List String :=
  firstKeys (nodes.map (module_id srcDir))

/-- `module_nodes` (line 189): the node records of one module, in order. -/
def moduleNodes (srcDir : String) (nodes : List Node) (k : String) : List Node :=
  nodes.filter (fun n => module_id srcDir n = k)

/-- `module_node_ids` (line 190), kept in first-appearance order. -/
def moduleNodeIds (srcDir : String) (nodes : List Node) (k : String) : List String :=
  nodeIdsOf (moduleNodes srcDir nodes k)

/-- `module_edges` (lines 192-195): both endpoints inside the module. -/
def moduleEdges (srcDir : String) (nodes : List Node) (edges : List Edge) (k : String) : List Edge :=
  edges.filter (fun e =>
    e.source ∈ moduleNodeIds srcDir nodes k ∧ e.target ∈ moduleNodeIds srcDir nodes k)

/-- The module-local contains pairs (lines 200-204; `module_edges` is
already endpoint-filtered, so the loop has no membership guard). -/
def modPairs (srcDir : String) (nodes : List Node) (edges : List Edge) (k : String) :
    List (String × String) :=
  ((moduleEdges srcDir nodes edges k).filter (fun e => e.type' = "contains")).map
    (fun e => (e.source, e.target))

/-- `sub_hierarchy` root ids (line 206): *all* module node ids without a
module-local parent, regardless of kind. -/
def subHierarchyIds (srcDir : String) (nodes : List Node) (edges : List Edge) (k : String) :
    List String :=
  (moduleNodeIds srcDir nodes k).filter
    (fun i => (parentOf (modPairs srcDir nodes edges k) i).isNone)

/-- `sub_edges` (line 207). -/
def subEdges (srcDir : String) (nodes : List Node) (edges : List Edge) (k : String) :
    List Edge :=
  (moduleEdges srcDir nodes edges k).filter (fun e => e.type' ≠ "contains")

/-! ### Exporter: the aggregate branch (lines 223-226) -/

/-- A Python value held by one of main's graph-shaped locals. -/
inductive PyVal where
  | ids (l : List String)
  | edgeList (l : List Edge)
deriving DecidableEq, Repr

/-- `output_file.endswith('.json')` (line 137): selects the single-file
aggregate branch. -/
def selectsAggregate (output_file : String) : Bool :=
  List.isSuffixOf ".json".toList output_file.toList

/-- The graph-shaped locals bound in `main` when control reaches the
aggregate branch (line 224): `roots` and `rels` are assigned at lines
131-134; the name `result` is never assigned anywhere in `main`. -/
def mainAggBound (nodes : List Node) (edges : List Edge) : List (String × PyVal) :=
  [("roots", PyVal.ids (rootsOf nodes edges)), ("rels", PyVal.edgeList (rels edges))]

/-- `json.dump(result, f)` at line 225 reads the name `result` from main's
locals; reading an unbound name raises `NameError`, modelled as `.error`. -/
def aggregateDump (nodes : List Node) (edges : List Edge) : Except String PyVal :=
  match (mainAggBound nodes edges).lookup "result" with
  | some v => Except.ok v
  | none => Except.error "NameError: name result is not defined"

/-! ### Reachability in the exported hierarchy

The aggregate file renders each root with its recursive `children` array,
so a node record occurs in the output exactly when some root reaches it
through the assembled children lists (one link per valid contains pair). -/

/-- Children-list reachability over the assembled pairs. -/
inductive Reach (pairs : List (String × String)) : String → String → Prop
  | refl (a : String) : Reach pairs a a
  | step {a b c : String} (h : Reach pairs a b) (hp : (b, c) ∈ pairs) : Reach pairs a c

/-- Reachability whose every visited node differs from `v`. -/
inductive ReachA (pairs : List (String × String)) (v : String) : String → String → Prop
  | refl (a : String) (h : a ≠ v) : ReachA pairs v a a
  | step {a b c : String} (h : ReachA pairs v a b) (hp : (b, c) ∈ pairs) (hc : c ≠ v) :
      ReachA pairs v a c

/-- A node id occurs in the exported aggregate hierarchy. -/
def hierExported (nodes : List Node) (edges : List Edge) (i : String) : Prop :=
  ∃ r ∈ rootsOf nodes edges, Reach (containsPairs (nodeIdsOf nodes) edges) r i

/-- `extends` references of one declaration, uniformly as a list. -/
def extendsList : ExtendsClause → List String
  | .noneE => []
  | .singleE s => [s]
  | .multiE l => l

/-- The ids of the nodes living in the shared class identity space. -/
def classIds (nodes : List Node) : List String :=
  (nodes.filter (fun n => n.type' = "class" ∨ n.type' = "interface")).map (·.id)

/-! ### Structural lemmas: every traversal step appends records that are a
function of the registry (`seen`) contents only. -/

/-- What one step appends to the collections and to each registry list. -/
structure Delta where
  ns : List Node := []
  es : List Edge := []
  dpk : List String := []
  dfl : List String := []
  dcl : List String := []
  dmt : List String := []
  dfd : List String := []

def applyD (d : Delta) (st : GState) : GState :=
  { nodes := st.nodes ++ d.ns, edges := st.edges ++ d.es,
    seen := { package := st.seen.package ++ d.dpk, file := st.seen.file ++ d.dfl,
              cls := st.seen.cls ++ d.dcl, method := st.seen.method ++ d.dmt,
              field := st.seen.field ++ d.dfd } }

def dcomp (d d' : Delta) : Delta :=
  ⟨d.ns ++ d'.ns, d.es ++ d'.es, d.dpk ++ d'.dpk, d.dfl ++ d'.dfl,
   d.dcl ++ d'.dcl, d.dmt ++ d'.dmt, d.dfd ++ d'.dfd⟩

lemma applyD_nil (st : GState) : applyD {} st = st := by
  simp [applyD]

lemma applyD_dcomp (d d' : Delta) (st : GState) :
    applyD (dcomp d d') st = applyD d' (applyD d st) := by
  simp [applyD, dcomp]

/-- Two registry states that agree everywhere except possibly on whether
the file path `p` has been seen. -/
def SeenRel (p : String) (sA sB : Seen) : Prop :=
  sA.package = sB.package ∧ sA.cls = sB.cls ∧ sA.method = sB.method ∧ sA.field = sB.field ∧
  ∀ q, q ≠ p → (q ∈ sA.file ↔ q ∈ sB.file)

lemma SeenRel.refl (p : String) (s : Seen) : SeenRel p s s :=
  ⟨rfl, rfl, rfl, rfl, fun _ _ => Iff.rfl⟩

lemma seenRel_applyD (p : String) (d : Delta) {stA stB : GState}
    (h : SeenRel p stA.seen stB.seen) :
    SeenRel p (applyD d stA).seen (applyD d stB).seen := by
  obtain ⟨h1, h2, h3, h4, h5⟩ := h
  refine ⟨by simp [applyD, h1], by simp [applyD, h2], by simp [applyD, h3],
          by simp [applyD, h4], fun q hq => ?_⟩
  simp only [applyD, List.mem_append]
  rw [h5 q hq]

/-- A step whose appended records depend only on the registry, and not on
whether the (irrelevant) path `p` has been registered. -/
def StepOK (p : String) (f : GState → GState) : Prop :=
  ∀ stA stB, SeenRel p stA.seen stB.seen →
    ∃ d : Delta, f stA = applyD d stA ∧ f stB = applyD d stB

lemma stepOK_comp {p : String} {f g : GState → GState}
    (hf : StepOK p f) (hg : StepOK p g) : StepOK p (fun st => g (f st)) := by
  intro stA stB h
  obtain ⟨d, hfa, hfb⟩ := hf stA stB h
  have h' : SeenRel p (f stA).seen (f stB).seen := by
    rw [hfa, hfb]; exact seenRel_applyD p d h
  obtain ⟨d', hga, hgb⟩ := hg (f stA) (f stB) h'
  refine ⟨dcomp d d', ?_, ?_⟩
  · show g (f stA) = _
    rw [hga, hfa, applyD_dcomp]
  · show g (f stB) = _
    rw [hgb, hfb, applyD_dcomp]

lemma stepOK_id (p : String) : StepOK p (fun st => st) :=
  fun stA stB _ => ⟨{}, (applyD_nil stA).symm, (applyD_nil stB).symm⟩

lemma stepOK_foldl {p : String} {α : Type} (step : GState → α → GState) (l : List α)
    (h : ∀ x ∈ l, StepOK p (fun st => step st x)) :
    StepOK p (fun st => l.foldl step st) := by
  induction l with
  | nil => simpa using stepOK_id p
  | cons x xs ih =>
      have hx := h x (List.mem_cons_self x xs)
      have hxs := ih (fun y hy => h y (List.mem_cons_of_mem x hy))
      simpa [List.foldl_cons] using stepOK_comp hx hxs

/-- A step only appends (diagonal instance of `StepOK`). -/
def Grows (f : GState → GState) : Prop :=
  ∀ st, ∃ d : Delta, f st = applyD d st

lemma Grows.of_stepOK {p : String} {f : GState → GState} (h : StepOK p f) : Grows f :=
  fun st => (h st st (SeenRel.refl p st.seen)).imp (fun _ hd => hd.1)

lemma grows_comp {f g : GState → GState} (hf : Grows f) (hg : Grows g) :
    Grows (fun st => g (f st)) := by
  intro st
  obtain ⟨d, hd⟩ := hf st
  obtain ⟨d', hd'⟩ := hg (f st)
  refine ⟨dcomp d d', ?_⟩
  show g (f st) = _
  rw [hd', hd, applyD_dcomp]

lemma grows_id : Grows (fun st => st) := fun st => ⟨{}, (applyD_nil st).symm⟩

lemma grows_foldl {α : Type} (step : GState → α → GState) (l : List α)
    (h : ∀ x ∈ l, Grows (fun st => step st x)) : Grows (fun st => l.foldl step st) := by
  induction l with
  | nil => simpa using grows_id
  | cons x xs ih =>
      have hx := h x (List.mem_cons_self x xs)
      have hxs := ih (fun y hy => h y (List.mem_cons_of_mem x hy))
      simpa [List.foldl_cons] using grows_comp hx hxs

lemma Grows.edges_mono {f : GState → GState} (h : Grows f) {st : GState} {e : Edge}
    (he : e ∈ st.edges) : e ∈ (f st).edges := by
  obtain ⟨d, hd⟩ := h st
  rw [hd]; exact List.mem_append.mpr (Or.inl he)

lemma Grows.nodes_mono {f : GState → GState} (h : Grows f) {st : GState} {n : Node}
    (hn : n ∈ st.nodes) : n ∈ (f st).nodes := by
  obtain ⟨d, hd⟩ := h st
  rw [hd]; exact List.mem_append.mpr (Or.inl hn)

lemma Grows.cls_mono {f : GState → GState} (h : Grows f) {st : GState} {i : String}
    (hi : i ∈ st.seen.cls) : i ∈ (f st).seen.cls := by
  obtain ⟨d, hd⟩ := h st
  rw [hd]; exact List.mem_append.mpr (Or.inl hi)

lemma stepOK_doFile {p : String} (path fname : String) (hp : path ≠ p) :
    StepOK p (doFile path fname) := by
  intro stA stB h
  by_cases hc : path ∈ stA.seen.file
  · have hcB : path ∈ stB.seen.file := (h.2.2.2.2 path hp).mp hc
    exact ⟨{}, by simp [doFile, hc, applyD_nil], by simp [doFile, hcB, applyD_nil]⟩
  · have hcB : path ∉ stB.seen.file := fun hx => hc ((h.2.2.2.2 path hp).mpr hx)
    exact ⟨{ ns := [fileNodeOf path fname], dfl := [path] },
           by simp [doFile, hc, applyD], by simp [doFile, hcB, applyD]⟩

lemma stepOK_doPkg (p : String) (pkg path : String) : StepOK p (doPkg pkg path) := by
  intro stA stB h
  by_cases he : pkg = ""
  · exact ⟨{}, by simp [doPkg, he, applyD_nil], by simp [doPkg, he, applyD_nil]⟩
  · by_cases hc : pkg ∈ stA.seen.package
    · have hcB : pkg ∈ stB.seen.package := h.1 ▸ hc
      exact ⟨{ es := [⟨pkg, path, "contains"⟩] },
             by simp [doPkg, he, hc, applyD], by simp [doPkg, he, hcB, applyD]⟩
    · have hcB : pkg ∉ stB.seen.package := h.1 ▸ hc
      exact ⟨{ ns := [pkgNodeOf pkg], es := [⟨pkg, path, "contains"⟩], dpk := [pkg] },
             by simp [doPkg, he, hc, applyD], by simp [doPkg, he, hcB, applyD]⟩

lemma stepOK_doImport (p : String) (path imp : String) :
    StepOK p (fun st => doImport path st imp) := by
  intro stA stB h
  by_cases hc : imp ∈ stA.seen.package
  · have hcB : imp ∈ stB.seen.package := h.1 ▸ hc
    exact ⟨{ es := [⟨path, imp, "import"⟩] },
           by simp [doImport, hc, applyD], by simp [doImport, hcB, applyD]⟩
  · have hcB : imp ∉ stB.seen.package := h.1 ▸ hc
    exact ⟨{ ns := [pkgNodeOf imp], es := [⟨path, imp, "import"⟩], dpk := [imp] },
           by simp [doImport, hc, applyD], by simp [doImport, hcB, applyD]⟩

lemma stepOK_doStub (p : String) (pkg fqcn sk ek s : String) :
    StepOK p (fun st => doStub pkg fqcn sk ek st s) := by
  intro stA stB h
  by_cases hc : qualify pkg s ∈ stA.seen.cls
  · have hcB : qualify pkg s ∈ stB.seen.cls := h.2.1 ▸ hc
    exact ⟨{ es := [⟨fqcn, qualify pkg s, ek⟩] },
           by simp [doStub, hc, applyD], by simp [doStub, hcB, applyD]⟩
  · have hcB : qualify pkg s ∉ stB.seen.cls := h.2.1 ▸ hc
    exact ⟨{ ns := [stubNodeOf pkg s sk], es := [⟨fqcn, qualify pkg s, ek⟩],
             dcl := [qualify pkg s] },
           by simp [doStub, hc, applyD], by simp [doStub, hcB, applyD]⟩

lemma stepOK_edgeApp (p : String) (e : Edge) :
    StepOK p (fun st => { st with edges := st.edges ++ [e] }) :=
  fun _ _ _ => ⟨{ es := [e] }, by simp [applyD], by simp [applyD]⟩

lemma stepOK_doField (p : String) (fqcn : String) (f : FieldDecl) :
    StepOK p (doField fqcn f) := by
  show StepOK p (fun st => f.declarators.foldl _ st)
  apply stepOK_foldl
  intro d _
  intro stA stB h
  by_cases hc : fqcn ++ "." ++ d ∈ stA.seen.field
  · have hcB : fqcn ++ "." ++ d ∈ stB.seen.field := h.2.2.2.1 ▸ hc
    exact ⟨{ es := [⟨fqcn, fqcn ++ "." ++ d, "contains"⟩] },
           by simp [hc, applyD], by simp [hcB, applyD]⟩
  · have hcB : fqcn ++ "." ++ d ∉ stB.seen.field := h.2.2.2.1 ▸ hc
    exact ⟨{ ns := [fieldNodeOf fqcn f d], es := [⟨fqcn, fqcn ++ "." ++ d, "contains"⟩],
             dfd := [fqcn ++ "." ++ d] },
           by simp [hc, applyD], by simp [hcB, applyD]⟩

lemma stepOK_doMethod (p : String) (fqcn : String) (m : MethodDecl) :
    StepOK p (doMethod fqcn m) := by
  have hguard : StepOK p (fun st =>
      if fqcn ++ "." ++ methodSig m ∈ st.seen.method then st
      else { st with nodes := st.nodes ++ [methodNodeOf fqcn m],
                     seen := { st.seen with
                               method := st.seen.method ++ [fqcn ++ "." ++ methodSig m] } }) := by
    intro stA stB h
    by_cases hc : fqcn ++ "." ++ methodSig m ∈ stA.seen.method
    · have hcB := h.2.2.1 ▸ hc
      exact ⟨{}, by simp [hc, applyD_nil], by simp [hcB, applyD_nil]⟩
    · have hcB := h.2.2.1 ▸ hc
      exact ⟨{ ns := [methodNodeOf fqcn m], dmt := [fqcn ++ "." ++ methodSig m] },
             by simp [hc, applyD], by simp [hcB, applyD]⟩
  have hedge := stepOK_edgeApp p ⟨fqcn, fqcn ++ "." ++ methodSig m, "contains"⟩
  have hcalls : StepOK p (fun st =>
      match m.body with
      | none => st
      | some invs => invs.foldl (fun st inv =>
          { st with edges := st.edges ++
              [⟨fqcn ++ "." ++ methodSig m, callTarget inv, "calls"⟩] }) st) := by
    cases m.body with
    | none => exact stepOK_id p
    | some invs =>
        apply stepOK_foldl
        intro inv _
        exact stepOK_edgeApp p _
  have hall := stepOK_comp (stepOK_comp hguard hedge) hcalls
  exact hall

lemma stepOK_doMember (p : String) (fqcn : String) (m : Member) :
    StepOK p (fun st => doMember fqcn st m) := by
  cases m with
  | fieldM f => exact stepOK_doField p fqcn f
  | methodM m => exact stepOK_doMethod p fqcn m
  | otherM => exact stepOK_id p

lemma stepOK_doType (p : String) (pkg path : String) (t : TypeDecl) :
    StepOK p (fun st => doType pkg path st t) := by
  have hguard : StepOK p (fun st =>
      if qualify pkg t.name ∈ st.seen.cls then st
      else { st with nodes := st.nodes ++ [classEntry pkg path t],
                     seen := { st.seen with cls := st.seen.cls ++ [qualify pkg t.name] } }) := by
    intro stA stB h
    by_cases hc : qualify pkg t.name ∈ stA.seen.cls
    · have hcB := h.2.1 ▸ hc
      exact ⟨{}, by simp [hc, applyD_nil], by simp [hcB, applyD_nil]⟩
    · have hcB := h.2.1 ▸ hc
      exact ⟨{ ns := [classEntry pkg path t], dcl := [qualify pkg t.name] },
             by simp [hc, applyD], by simp [hcB, applyD]⟩
  have hedge := stepOK_edgeApp p ⟨path, qualify pkg t.name, "contains"⟩
  have hext : StepOK p (fun st =>
      match t.ext with
      | ExtendsClause.noneE => st
      | ExtendsClause.singleE s => doStub pkg (qualify pkg t.name) "class" "extends" st s
      | ExtendsClause.multiE l =>
          l.foldl (doStub pkg (qualify pkg t.name) "class" "extends") st) := by
    cases t.ext with
    | noneE => exact stepOK_id p
    | singleE s => exact stepOK_doStub p pkg (qualify pkg t.name) "class" "extends" s
    | multiE l =>
        exact stepOK_foldl _ _
          (fun s _ => stepOK_doStub p pkg (qualify pkg t.name) "class" "extends" s)
  have himpl : StepOK p (fun st =>
      t.impls.foldl (doStub pkg (qualify pkg t.name) "interface" "implements") st) :=
    stepOK_foldl _ _
      (fun s _ => stepOK_doStub p pkg (qualify pkg t.name) "interface" "implements" s)
  have hbody : StepOK p (fun st => t.body.foldl (doMember (qualify pkg t.name)) st) :=
    stepOK_foldl _ _ (fun mm _ => stepOK_doMember p (qualify pkg t.name) mm)
  have hall := stepOK_comp (stepOK_comp (stepOK_comp (stepOK_comp hguard hedge) hext) himpl) hbody
  exact hall

lemma stepOK_processFile {p : String} (srcDir : String) (jf : JavaFile)
    (hp : srcDir ++ "/" ++ jf.rel ≠ p) :
    StepOK p (fun st => processFile srcDir st jf) := by
  have h1 := stepOK_doFile (srcDir ++ "/" ++ jf.rel) (lastSeg jf.rel) hp
  have h2 := stepOK_doPkg p (parseTriple jf.parsed).1 (srcDir ++ "/" ++ jf.rel)
  have h3 : StepOK p (fun st =>
      (parseTriple jf.parsed).2.1.foldl (doImport (srcDir ++ "/" ++ jf.rel)) st) :=
    stepOK_foldl _ _ (fun imp _ => stepOK_doImport p (srcDir ++ "/" ++ jf.rel) imp)
  have h4 : StepOK p (fun st =>
      (parseTriple jf.parsed).2.2.foldl
        (doType (parseTriple jf.parsed).1 (srcDir ++ "/" ++ jf.rel)) st) :=
    stepOK_foldl _ _ (fun t _ => stepOK_doType p _ _ t)
  have hall := stepOK_comp (stepOK_comp (stepOK_comp h1 h2) h3) h4
  exact hall

lemma ne_append_bang (s : String) : s ≠ s ++ "!" := by
  intro h
  have h2 := congrArg String.length h
  rw [String.length_append] at h2
  have h3 : "!".length = 1 := rfl
  omega

lemma grows_processFile (srcDir : String) (jf : JavaFile) :
    Grows (fun st => processFile srcDir st jf) :=
  Grows.of_stepOK (stepOK_processFile srcDir jf (ne_append_bang _))

lemma grows_doStub (pkg fqcn sk ek s : String) :
    Grows (fun st => doStub pkg fqcn sk ek st s) :=
  Grows.of_stepOK (stepOK_doStub "" pkg fqcn sk ek s)

lemma grows_doMember (fqcn : String) (m : Member) :
    Grows (fun st => doMember fqcn st m) :=
  Grows.of_stepOK (stepOK_doMember "" fqcn m)

lemma grows_doType (pkg path : String) (t : TypeDecl) :
    Grows (fun st => doType pkg path st t) :=
  Grows.of_stepOK (stepOK_doType "" pkg path t)

/-! ### The registered file paths are exactly the visited paths -/

lemma seenFile_foldl {α : Type} (step : GState → α → GState) (l : List α)
    (h : ∀ st x, (step st x).seen.file = st.seen.file) :
    ∀ st : GState, (l.foldl step st).seen.file = st.seen.file := by
  induction l with
  | nil => intro st; rfl
  | cons x xs ih => intro st; rw [List.foldl_cons, ih, h]

lemma seenFile_doPkg (pkg path : String) (st : GState) :
    (doPkg pkg path st).seen.file = st.seen.file := by
  by_cases he : pkg = ""
  · simp [doPkg, he]
  · by_cases hc : pkg ∈ st.seen.package <;> simp [doPkg, he, hc]

lemma seenFile_doImport (path : String) (st : GState) (imp : String) :
    (doImport path st imp).seen.file = st.seen.file := by
  by_cases hc : imp ∈ st.seen.package <;> simp [doImport, hc]

lemma seenFile_doStub (pkg fqcn sk ek : String) (st : GState) (s : String) :
    (doStub pkg fqcn sk ek st s).seen.file = st.seen.file := by
  by_cases hc : qualify pkg s ∈ st.seen.cls <;> simp [doStub, hc]

lemma seenFile_doField (fqcn : String) (f : FieldDecl) (st : GState) :
    (doField fqcn f st).seen.file = st.seen.file := by
  show (f.declarators.foldl _ st).seen.file = st.seen.file
  apply seenFile_foldl
  intro st d
  by_cases hc : fqcn ++ "." ++ d ∈ st.seen.field <;> simp [hc]

lemma seenFile_doMethod (fqcn : String) (m : MethodDecl) (st : GState) :
    (doMethod fqcn m st).seen.file = st.seen.file := by
  unfold doMethod
  dsimp only
  cases m.body with
  | none => by_cases hc : fqcn ++ "." ++ methodSig m ∈ st.seen.method <;> simp [hc]
  | some invs =>
      rw [seenFile_foldl
            (fun st inv => { st with edges := st.edges ++
              [⟨fqcn ++ "." ++ methodSig m, callTarget inv, "calls"⟩] })
            invs (fun st inv => rfl)]
      by_cases hc : fqcn ++ "." ++ methodSig m ∈ st.seen.method <;> simp [hc]

lemma seenFile_doMember (fqcn : String) (st : GState) (m : Member) :
    (doMember fqcn st m).seen.file = st.seen.file := by
  cases m with
  | fieldM f => exact seenFile_doField fqcn f st
  | methodM m => exact seenFile_doMethod fqcn m st
  | otherM => rfl

lemma seenFile_doType (pkg path : String) (st : GState) (t : TypeDecl) :
    (doType pkg path st t).seen.file = st.seen.file := by
  unfold doType
  rw [seenFile_foldl _ t.body (fun st mm => seenFile_doMember _ st mm)]
  rw [seenFile_foldl _ t.impls (fun st s => seenFile_doStub _ _ _ _ st s)]
  cases t.ext with
  | noneE => by_cases hc : qualify pkg t.name ∈ st.seen.cls <;> simp [hc]
  | singleE s =>
      rw [seenFile_doStub]
      by_cases hc : qualify pkg t.name ∈ st.seen.cls <;> simp [hc]
  | multiE l =>
      rw [seenFile_foldl _ l (fun st s => seenFile_doStub _ _ _ _ st s)]
      by_cases hc : qualify pkg t.name ∈ st.seen.cls <;> simp [hc]

lemma seenFile_processFile (srcDir : String) (st : GState) (jf : JavaFile) :
    (processFile srcDir st jf).seen.file = st.seen.file ++
      (if srcDir ++ "/" ++ jf.rel ∈ st.seen.file then [] else [srcDir ++ "/" ++ jf.rel]) := by
  unfold processFile
  rw [seenFile_foldl _ _ (fun st t => seenFile_doType _ _ st t)]
  rw [seenFile_foldl _ _ (fun st imp => seenFile_doImport _ st imp)]
  rw [seenFile_doPkg]
  unfold doFile
  by_cases hc : srcDir ++ "/" ++ jf.rel ∈ st.seen.file <;> simp [hc]

lemma run_foldl_seenFile (srcDir : String) (fs : List JavaFile) :
    ∀ (st : GState) (q : String), q ∈ (fs.foldl (processFile srcDir) st).seen.file →
      q ∈ st.seen.file ∨ ∃ jf ∈ fs, q = srcDir ++ "/" ++ jf.rel := by
  induction fs with
  | nil => intro st q h; exact Or.inl h
  | cons jf fs ih =>
      intro st q h
      rw [List.foldl_cons] at h
      rcases ih _ q h with h1 | ⟨jf', hm, he⟩
      · rw [seenFile_processFile] at h1
        rcases List.mem_append.mp h1 with h2 | h2
        · exact Or.inl h2
        · right
          refine ⟨jf, List.mem_cons_self _ _, ?_⟩
          by_cases hc : srcDir ++ "/" ++ jf.rel ∈ st.seen.file
          · simp [hc] at h2
          · simp [hc] at h2; exact h2
      · exact Or.inr ⟨jf', List.mem_cons_of_mem _ hm, he⟩

lemma run_append (srcDir : String) (l1 l2 : List JavaFile) :
    run srcDir (l1 ++ l2) = l2.foldl (processFile srcDir) (run srcDir l1) := by
  unfold run
  rw [List.foldl_append]

lemma processFile_failure (srcDir : String) (st : GState) (bad : JavaFile)
    (h : bad.parsed = ParseResult.failure) :
    processFile srcDir st bad = doFile (srcDir ++ "/" ++ bad.rel) (lastSeg bad.rel) st := by
  unfold processFile
  rw [h]
  simp [parseTriple, doPkg]

lemma strCancel {a b c : String} (h : a ++ b = a ++ c) : b = c := by
  have h2 := congrArg String.data h
  simp only [String.data_append] at h2
  exact String.ext (List.append_cancel_left h2)

/-- Folding the remaining files over two states that differ by one extra
file node (and its registered path) keeps the edges equal and the nodes
equal up to that one extra node. -/
lemma c1_fold (srcDir p : String) (fn : Node) (post : List JavaFile)
    (hp : ∀ jf ∈ post, srcDir ++ "/" ++ jf.rel ≠ p) :
    ∀ stA stB : GState, SeenRel p stA.seen stB.seen → stB.edges = stA.edges →
      stB.nodes.Perm (fn :: stA.nodes) →
      (post.foldl (processFile srcDir) stB).edges =
        (post.foldl (processFile srcDir) stA).edges ∧
      (post.foldl (processFile srcDir) stB).nodes.Perm
        (fn :: (post.foldl (processFile srcDir) stA).nodes) := by
  induction post with
  | nil => intro stA stB _ he hn; exact ⟨he, hn⟩
  | cons jf fs ih =>
      intro stA stB h he hn
      obtain ⟨d, hda, hdb⟩ :=
        stepOK_processFile srcDir jf (hp jf (List.mem_cons_self _ _)) stA stB h
      dsimp only at hda hdb
      rw [List.foldl_cons, List.foldl_cons]
      apply ih (fun x hx => hp x (List.mem_cons_of_mem _ hx))
      · show SeenRel p (processFile srcDir stA jf).seen (processFile srcDir stB jf).seen
        rw [hda, hdb]
        exact seenRel_applyD p d h
      · show (processFile srcDir stB jf).edges = (processFile srcDir stA jf).edges
        rw [hda, hdb]
        simp [applyD, he]
      · show (processFile srcDir stB jf).nodes.Perm (fn :: (processFile srcDir stA jf).nodes)
        rw [hda, hdb]
        show (stB.nodes ++ d.ns).Perm (fn :: (stA.nodes ++ d.ns))
        have := hn.append_right d.ns
        simpa using this

/-! ## Claim C1 -/

/-- C1, counterexample: a run over a single file the parser fails on still
appends a File node for it (lines 41-45 run unconditionally), so the file
does not contribute zero nodes. -/
theorem c1_counterexample :
    (run "/s" [⟨"Bad.java", ParseResult.failure⟩]).nodes =
      [fileNodeOf "/s/Bad.java" "Bad.java"] ∧
    (run "/s" [⟨"Bad.java", ParseResult.failure⟩]).edges = [] := by
  constructor <;> rfl

/-- C1, amended: a file the parser fails on contributes exactly its File
node and zero edges; traversal continues, and every other (well-formed)
file's nodes and edges are exactly those of the run without the failing
file. -/
theorem c1_amended (srcDir : String) (pre post : List JavaFile) (bad : JavaFile)
    (hfail : bad.parsed = ParseResult.failure)
    (hfresh : ∀ jf ∈ pre ++ post, jf.rel ≠ bad.rel) :
    (run srcDir (pre ++ bad :: post)).edges = (run srcDir (pre ++ post)).edges ∧
    (run srcDir (pre ++ bad :: post)).nodes.Perm
      (fileNodeOf (srcDir ++ "/" ++ bad.rel) (lastSeg bad.rel) ::
        (run srcDir (pre ++ post)).nodes) := by
  have hdecB : run srcDir (pre ++ bad :: post) =
      post.foldl (processFile srcDir) (processFile srcDir (run srcDir pre) bad) := by
    rw [run_append, List.foldl_cons]
  have hdecA : run srcDir (pre ++ post) =
      post.foldl (processFile srcDir) (run srcDir pre) := run_append srcDir pre post
  have hnot : srcDir ++ "/" ++ bad.rel ∉ (run srcDir pre).seen.file := by
    intro hmem
    have hrun : run srcDir pre = pre.foldl (processFile srcDir) {} := rfl
    rw [hrun] at hmem
    rcases run_foldl_seenFile srcDir pre {} _ hmem with h0 | ⟨jf, hjf, he⟩
    · simp at h0
    · exact hfresh jf (List.mem_append_left _ hjf) (strCancel he).symm
  have hstep : processFile srcDir (run srcDir pre) bad =
      { run srcDir pre with
        nodes := (run srcDir pre).nodes ++
          [fileNodeOf (srcDir ++ "/" ++ bad.rel) (lastSeg bad.rel)],
        seen := { (run srcDir pre).seen with
                  file := (run srcDir pre).seen.file ++ [srcDir ++ "/" ++ bad.rel] } } := by
    rw [processFile_failure srcDir _ bad hfail]
    unfold doFile
    rw [if_neg hnot]
  have hrel : SeenRel (srcDir ++ "/" ++ bad.rel) (run srcDir pre).seen
      (processFile srcDir (run srcDir pre) bad).seen := by
    rw [hstep]
    refine ⟨rfl, rfl, rfl, rfl, fun q hq => ?_⟩
    simp [List.mem_append, hq]
  have hedges : (processFile srcDir (run srcDir pre) bad).edges = (run srcDir pre).edges := by
    rw [hstep]
  have hnodes : (processFile srcDir (run srcDir pre) bad).nodes.Perm
      (fileNodeOf (srcDir ++ "/" ++ bad.rel) (lastSeg bad.rel) :: (run srcDir pre).nodes) := by
    rw [hstep]
    exact List.perm_append_singleton _ _
  have hp' : ∀ jf ∈ post, srcDir ++ "/" ++ jf.rel ≠ srcDir ++ "/" ++ bad.rel := by
    intro jf hjf he
    exact hfresh jf (List.mem_append_right _ hjf) (strCancel he)
  have hmain := c1_fold srcDir (srcDir ++ "/" ++ bad.rel)
    (fileNodeOf (srcDir ++ "/" ++ bad.rel) (lastSeg bad.rel)) post hp'
    (run srcDir pre) (processFile srcDir (run srcDir pre) bad) hrel hedges hnodes
  rw [hdecB, hdecA]
  exact hmain

/-- C1 witness: concrete instance of `c1_amended` with one failing and one
well-formed file. -/
theorem c1_amended_witness :
    (run "/s" [⟨"Bad.java", ParseResult.failure⟩, ⟨"Good.java", ParseResult.success "p" [] []⟩]).edges =
      (run "/s" [⟨"Good.java", ParseResult.success "p" [] []⟩]).edges ∧
    (run "/s" [⟨"Bad.java", ParseResult.failure⟩, ⟨"Good.java", ParseResult.success "p" [] []⟩]).nodes.Perm
      (fileNodeOf "/s/Bad.java" "Bad.java" ::
        (run "/s" [⟨"Good.java", ParseResult.success "p" [] []⟩]).nodes) := by
  have h := c1_amended "/s" [] [⟨"Good.java", ParseResult.success "p" [] []⟩]
    ⟨"Bad.java", ParseResult.failure⟩ rfl (by decide)
  simpa using h

/-! ## Claim C2 -/

/-- C2 (code bug in the source): whenever the output target selects the
single-file aggregate branch, the dump at line 225 reads the unbound name
`result` and raises NameError; the `{hierarchy, relations}` structure the
spec prescribes is never written. -/
theorem c2_result_undefined (nodes : List Node) (edges : List Edge) (out : String)
    (h : selectsAggregate out = true) :
    aggregateDump nodes edges = Except.error "NameError: name result is not defined" := rfl

/-- C2 witness: the default output target selects the aggregate branch and
the dump fails. -/
theorem c2_result_undefined_witness :
    selectsAggregate "knowledge_graph.json" = true ∧
    aggregateDump [] [] = Except.error "NameError: name result is not defined" :=
  ⟨by decide, c2_result_undefined [] [] "knowledge_graph.json" (by decide)⟩

/-! ## The final parent entry is the last valid contains pair -/

lemma parentOf_eq (pairs : List (String × String)) (t : String) :
    parentOf pairs t = ((pairs.filter (fun p => p.2 = t)).getLast?).map Prod.fst := by
  induction pairs using List.reverseRecOn with
  | nil => rfl
  | append_singleton l p ih =>
      unfold parentOf at ih ⊢
      rw [List.foldl_append, List.foldl_cons, List.foldl_nil, List.filter_append]
      by_cases hc : p.2 = t
      · simp [hc]
      · simp [hc, ih]

lemma parentOf_eq_none (pairs : List (String × String)) (t : String) :
    parentOf pairs t = none ↔ ∀ p ∈ pairs, p.2 ≠ t := by
  rw [parentOf_eq]
  simp [List.filter_eq_nil_iff]

lemma mem_childrenOf {pairs : List (String × String)} {p : String × String} (hp : p ∈ pairs) :
    p.2 ∈ childrenOf pairs p.1 :=
  List.mem_map.mpr ⟨p, List.mem_filter.mpr ⟨hp, by simp⟩, rfl⟩

/-! ## Claim C3 -/

/-- C3, counterexample: two files each declaring class `Foo` (no package)
produce two contains edges targeting `Foo` from two different file nodes;
after assembly `Foo` sits in *both* roots' children lists in the exported
hierarchy (the recorded parent is the later source), not in exactly one. -/
theorem c3_counterexample :
    (run "/s" [⟨"A.java", ParseResult.success "" [] [⟨"Foo", ExtendsClause.noneE, [], []⟩]⟩,
               ⟨"B.java", ParseResult.success "" [] [⟨"Foo", ExtendsClause.noneE, [], []⟩]⟩]).edges =
      [⟨"/s/A.java", "Foo", "contains"⟩, ⟨"/s/B.java", "Foo", "contains"⟩] ∧
    rootsOf (run "/s" [⟨"A.java", ParseResult.success "" [] [⟨"Foo", ExtendsClause.noneE, [], []⟩]⟩,
                       ⟨"B.java", ParseResult.success "" [] [⟨"Foo", ExtendsClause.noneE, [], []⟩]⟩]).nodes
            (run "/s" [⟨"A.java", ParseResult.success "" [] [⟨"Foo", ExtendsClause.noneE, [], []⟩]⟩,
                       ⟨"B.java", ParseResult.success "" [] [⟨"Foo", ExtendsClause.noneE, [], []⟩]⟩]).edges =
      ["/s/A.java", "/s/B.java"] ∧
    ((rootsOf (run "/s" [⟨"A.java", ParseResult.success "" [] [⟨"Foo", ExtendsClause.noneE, [], []⟩]⟩,
                         ⟨"B.java", ParseResult.success "" [] [⟨"Foo", ExtendsClause.noneE, [], []⟩]⟩]).nodes
              (run "/s" [⟨"A.java", ParseResult.success "" [] [⟨"Foo", ExtendsClause.noneE, [], []⟩]⟩,
                         ⟨"B.java", ParseResult.success "" [] [⟨"Foo", ExtendsClause.noneE, [], []⟩]⟩]).edges).filter
        (fun r => "Foo" ∈ childrenOf
          (containsPairs
            (nodeIdsOf (run "/s" [⟨"A.java", ParseResult.success "" [] [⟨"Foo", ExtendsClause.noneE, [], []⟩]⟩,
                                  ⟨"B.java", ParseResult.success "" [] [⟨"Foo", ExtendsClause.noneE, [], []⟩]⟩]).nodes)
            (run "/s" [⟨"A.java", ParseResult.success "" [] [⟨"Foo", ExtendsClause.noneE, [], []⟩]⟩,
                       ⟨"B.java", ParseResult.success "" [] [⟨"Foo", ExtendsClause.noneE, [], []⟩]⟩]).edges) r)).length = 2 := by
  refine ⟨rfl, rfl, ?_⟩
  decide

/-- C3, amended: the parent *map* records at most one parent per node (the
source of the last valid contains edge targeting it), but the node is
appended to the children list of every such edge's source, so it can
appear under several parents in the exported hierarchy. -/
theorem c3_amended (nodes : List Node) (edges : List Edge) (t : String)
    (ps : List (String × String))
    (h : (containsPairs (nodeIdsOf nodes) edges).filter (fun p => p.2 = t) = ps)
    (hne : ps ≠ []) :
    parentOf (containsPairs (nodeIdsOf nodes) edges) t = ps.getLast?.map Prod.fst ∧
    ∀ p ∈ ps, t ∈ childrenOf (containsPairs (nodeIdsOf nodes) edges) p.1 := by
  constructor
  · rw [parentOf_eq, h]
  · intro p hp
    rw [← h] at hp
    have hmem := List.mem_filter.mp hp
    have ht : p.2 = t := by simpa using hmem.2
    exact ht ▸ mem_childrenOf hmem.1

/-- C3 witness: concrete instance of `c3_amended` on the double-`Foo` run. -/
theorem c3_amended_witness :
    parentOf (containsPairs
        (nodeIdsOf (run "/s" [⟨"A.java", ParseResult.success "" [] [⟨"Foo", ExtendsClause.noneE, [], []⟩]⟩,
                              ⟨"B.java", ParseResult.success "" [] [⟨"Foo", ExtendsClause.noneE, [], []⟩]⟩]).nodes)
        (run "/s" [⟨"A.java", ParseResult.success "" [] [⟨"Foo", ExtendsClause.noneE, [], []⟩]⟩,
                   ⟨"B.java", ParseResult.success "" [] [⟨"Foo", ExtendsClause.noneE, [], []⟩]⟩]).edges) "Foo" =
      ([("/s/A.java", "Foo"), ("/s/B.java", "Foo")] : List (String × String)).getLast?.map Prod.fst ∧
    ∀ p ∈ ([("/s/A.java", "Foo"), ("/s/B.java", "Foo")] : List (String × String)),
      "Foo" ∈ childrenOf (containsPairs
        (nodeIdsOf (run "/s" [⟨"A.java", ParseResult.success "" [] [⟨"Foo", ExtendsClause.noneE, [], []⟩]⟩,
                              ⟨"B.java", ParseResult.success "" [] [⟨"Foo", ExtendsClause.noneE, [], []⟩]⟩]).nodes)
        (run "/s" [⟨"A.java", ParseResult.success "" [] [⟨"Foo", ExtendsClause.noneE, [], []⟩]⟩,
                   ⟨"B.java", ParseResult.success "" [] [⟨"Foo", ExtendsClause.noneE, [], []⟩]⟩]).edges) p.1 :=
  c3_amended _ _ "Foo" _ (by decide) (by decide)

/-! ## Claim C7 -/

/-- C7: when exactly two valid contains edges target `t`, from sources
`s1` then `s2`, the recorded parent is `s2`, the source of the edge that
appears later in the input edge order. -/
theorem c7_last_writer_wins (nodes : List Node) (edges : List Edge) (t s1 s2 : String)
    (h : (containsPairs (nodeIdsOf nodes) edges).filter (fun p => p.2 = t) = [(s1, t), (s2, t)])
    (hne : s1 ≠ s2) :
    parentOf (containsPairs (nodeIdsOf nodes) edges) t = some s2 := by
  rw [parentOf_eq, h]
  rfl

/-- C7 witness: the double-`Foo` run records `/s/B.java`, the later edge's
source, as `Foo`'s parent. -/
theorem c7_last_writer_wins_witness :
    parentOf (containsPairs
        (nodeIdsOf (run "/s" [⟨"A.java", ParseResult.success "" [] [⟨"Foo", ExtendsClause.noneE, [], []⟩]⟩,
                              ⟨"B.java", ParseResult.success "" [] [⟨"Foo", ExtendsClause.noneE, [], []⟩]⟩]).nodes)
        (run "/s" [⟨"A.java", ParseResult.success "" [] [⟨"Foo", ExtendsClause.noneE, [], []⟩]⟩,
                   ⟨"B.java", ParseResult.success "" [] [⟨"Foo", ExtendsClause.noneE, [], []⟩]⟩]).edges) "Foo" =
      some "/s/B.java" :=
  c7_last_writer_wins _ _ "Foo" "/s/A.java" "/s/B.java" (by decide) (by decide)

/-! ## Claim C10 -/

lemma reach_cases {pairs : List (String × String)} {a b : String}
    (h : Reach pairs a b) : a = b ∨ ∃ p ∈ pairs, p.2 = b := by
  cases h with
  | refl => exact Or.inl rfl
  | step h hp => exact Or.inr ⟨_, hp, rfl⟩

lemma reachA_to_reach {pairs : List (String × String)} {v a b : String}
    (h : ReachA pairs v a b) : Reach pairs a b := by
  induction h with
  | refl hx => exact Reach.refl _
  | step h hp hc ih => exact Reach.step ih hp

lemma reach_split {pairs : List (String × String)} (v : String) {a b : String}
    (h : Reach pairs a b) : ReachA pairs v a b ∨ Reach pairs a v := by
  induction h with
  | refl =>
      by_cases hv : a = v
      · right; rw [hv]; exact Reach.refl v
      · left; exact ReachA.refl a hv
  | step h hp ih =>
      rename_i y z
      rcases ih with hA | hV
      · by_cases hvz : z = v
        · right; rw [← hvz]; exact Reach.step (reachA_to_reach hA) hp
        · left; exact ReachA.step hA hp hvz
      · right; exact hV

lemma reachA_target_ne {pairs : List (String × String)} {v a : String}
    (h : ReachA pairs v a v) : False := by
  cases h with
  | refl hx => exact hx rfl
  | step h hp hc => exact hc rfl

/-- C10: when at least one Package-kind node is parentless, the roots are
exactly the parentless package entries; a parentless node of any other
kind is absent from the exported aggregate hierarchy, and so is every node
whose every root chain passes through it. -/
theorem c10_fallback_roots (nodes : List Node) (edges : List Edge) (v : String)
    (hpkg : pkgRoots nodes edges ≠ [])
    (hv : v ∈ nodeIdsOf nodes)
    (hpar : parentOf (containsPairs (nodeIdsOf nodes) edges) v = none)
    (hkind : kindOf nodes v ≠ "package") :
    rootsOf nodes edges = pkgRoots nodes edges ∧
    ¬ hierExported nodes edges v ∧
    ∀ n, (∀ r ∈ rootsOf nodes edges, ¬ ReachA (containsPairs (nodeIdsOf nodes) edges) v r n) →
      ¬ hierExported nodes edges n := by
  have hroots : rootsOf nodes edges = pkgRoots nodes edges := by
    unfold rootsOf
    dsimp only
    cases hE : pkgRoots nodes edges with
    | nil => exact absurd hE hpkg
    | cons a l => simp
  have hnoin : ∀ p ∈ containsPairs (nodeIdsOf nodes) edges, p.2 ≠ v :=
    (parentOf_eq_none _ _).mp hpar
  have hvroot : v ∉ pkgRoots nodes edges := by
    intro hm
    unfold pkgRoots at hm
    dsimp only at hm
    have h2 := (List.mem_filter.mp hm).2
    simp only [decide_eq_true_eq] at h2
    exact hkind h2.2
  have hnoexp : ¬ hierExported nodes edges v := by
    rintro ⟨r, hr, hreach⟩
    rcases reach_cases hreach with heq | ⟨p, hp, hpt⟩
    · rw [hroots] at hr
      exact hvroot (heq ▸ hr)
    · exact hnoin p hp hpt
  refine ⟨hroots, hnoexp, ?_⟩
  rintro n hn ⟨r, hr, hreach⟩
  rcases reach_split v hreach with hA | hV
  · exact hn r hr hA
  · exact hnoexp ⟨r, hr, hV⟩

/-- C10 witness: a run with a packaged file `G.java` (package `p`) and an
unpackaged file `F.java`: the roots are exactly `[p]` and the parentless
file node `/s/F.java` is not exported. -/
theorem c10_fallback_roots_witness :
    rootsOf (run "/s" [⟨"F.java", ParseResult.success "" [] [⟨"C", ExtendsClause.noneE, [], []⟩]⟩,
                       ⟨"G.java", ParseResult.success "p" [] []⟩]).nodes
            (run "/s" [⟨"F.java", ParseResult.success "" [] [⟨"C", ExtendsClause.noneE, [], []⟩]⟩,
                       ⟨"G.java", ParseResult.success "p" [] []⟩]).edges =
      pkgRoots (run "/s" [⟨"F.java", ParseResult.success "" [] [⟨"C", ExtendsClause.noneE, [], []⟩]⟩,
                          ⟨"G.java", ParseResult.success "p" [] []⟩]).nodes
               (run "/s" [⟨"F.java", ParseResult.success "" [] [⟨"C", ExtendsClause.noneE, [], []⟩]⟩,
                          ⟨"G.java", ParseResult.success "p" [] []⟩]).edges ∧
    ¬ hierExported (run "/s" [⟨"F.java", ParseResult.success "" [] [⟨"C", ExtendsClause.noneE, [], []⟩]⟩,
                              ⟨"G.java", ParseResult.success "p" [] []⟩]).nodes
                   (run "/s" [⟨"F.java", ParseResult.success "" [] [⟨"C", ExtendsClause.noneE, [], []⟩]⟩,
                              ⟨"G.java", ParseResult.success "p" [] []⟩]).edges "/s/F.java" := by
  have h := c10_fallback_roots
    (run "/s" [⟨"F.java", ParseResult.success "" [] [⟨"C", ExtendsClause.noneE, [], []⟩]⟩,
               ⟨"G.java", ParseResult.success "p" [] []⟩]).nodes
    (run "/s" [⟨"F.java", ParseResult.success "" [] [⟨"C", ExtendsClause.noneE, [], []⟩]⟩,
               ⟨"G.java", ParseResult.success "p" [] []⟩]).edges
    "/s/F.java" (by decide) (by decide) (by decide) (by decide)
  exact ⟨h.1, h.2.1⟩

/-! ## Module membership characterizations -/

lemma mem_firstKeys_aux (l : List String) :
    ∀ (acc : List String) (x : String),
      x ∈ l.foldl (fun acc x => if x ∈ acc then acc else acc ++ [x]) acc ↔
        x ∈ acc ∨ x ∈ l := by
  induction l with
  | nil => intro acc x; simp
  | cons y ys ih =>
      intro acc x
      rw [List.foldl_cons, ih]
      by_cases hy : y ∈ acc
      · rw [if_pos hy]
        constructor
        · rintro (h1 | h2)
          · exact Or.inl h1
          · exact Or.inr (List.mem_cons_of_mem _ h2)
        · rintro (h1 | h2)
          · exact Or.inl h1
          · rcases List.mem_cons.mp h2 with h3 | h3
            · exact Or.inl (h3 ▸ hy)
            · exact Or.inr h3
      · rw [if_neg hy]
        simp [List.mem_append, or_assoc]

lemma mem_firstKeys {l : List String} {x : String} : x ∈ firstKeys l ↔ x ∈ l := by
  unfold firstKeys
  rw [mem_firstKeys_aux]
  simp

lemma mem_nodeIdsOf {nodes : List Node} {i : String} :
    i ∈ nodeIdsOf nodes ↔ ∃ n ∈ nodes, n.id = i := by
  unfold nodeIdsOf
  rw [mem_firstKeys]
  simp [List.mem_map]

lemma mem_moduleNodeIds {srcDir : String} {nodes : List Node} {k i : String} :
    i ∈ moduleNodeIds srcDir nodes k ↔
      ∃ n ∈ nodes, module_id srcDir n = k ∧ n.id = i := by
  unfold moduleNodeIds moduleNodes
  rw [mem_nodeIdsOf]
  constructor
  · rintro ⟨n, hn, hi⟩
    have h2 := List.mem_filter.mp hn
    exact ⟨n, h2.1, by simpa using h2.2, hi⟩
  · rintro ⟨n, hn, hk, hi⟩
    exact ⟨n, List.mem_filter.mpr ⟨hn, by simpa using hk⟩, hi⟩

lemma mem_moduleKeys {srcDir : String} {nodes : List Node} {k : String} :
    k ∈ moduleKeys srcDir nodes ↔ ∃ n ∈ nodes, module_id srcDir n = k := by
  unfold moduleKeys
  rw [mem_firstKeys]
  simp [List.mem_map]

/-! ## Claim C5 -/

/-- C5, counterexample: a run containing a class `foo` declared with no
package in `bar/A.java` and a package declaration `foo` in `foo/B.java`
puts the single id `foo` into the node-id sets of the two distinct
modules `bar` and `foo`: the per-module node-id sets are not disjoint. -/
theorem c5_counterexample :
    "foo" ∈ moduleNodeIds "/s"
      (run "/s" [⟨"bar/A.java", ParseResult.success "" [] [⟨"foo", ExtendsClause.noneE, [], []⟩]⟩,
                 ⟨"foo/B.java", ParseResult.success "foo" [] []⟩]).nodes "bar" ∧
    "foo" ∈ moduleNodeIds "/s"
      (run "/s" [⟨"bar/A.java", ParseResult.success "" [] [⟨"foo", ExtendsClause.noneE, [], []⟩]⟩,
                 ⟨"foo/B.java", ParseResult.success "foo" [] []⟩]).nodes "foo" ∧
    "bar" ∈ moduleKeys "/s"
      (run "/s" [⟨"bar/A.java", ParseResult.success "" [] [⟨"foo", ExtendsClause.noneE, [], []⟩]⟩,
                 ⟨"foo/B.java", ParseResult.success "foo" [] []⟩]).nodes ∧
    "foo" ∈ moduleKeys "/s"
      (run "/s" [⟨"bar/A.java", ParseResult.success "" [] [⟨"foo", ExtendsClause.noneE, [], []⟩]⟩,
                 ⟨"foo/B.java", ParseResult.success "foo" [] []⟩]).nodes ∧
    ("bar" : String) ≠ "foo" := by
  decide

/-- C5, amended: every node record lands in exactly one module, so the
union of the per-module node-id sets is the full node-id set; the id sets
of distinct modules are disjoint whenever node ids are globally distinct
(two nodes of different kinds may share an id and break disjointness). -/
theorem c5_partition (srcDir : String) (nodes : List Node) :
    (∀ i, i ∈ nodes.map (fun n => n.id) ↔
       ∃ k ∈ moduleKeys srcDir nodes, i ∈ moduleNodeIds srcDir nodes k) ∧
    ((nodes.map (fun n => n.id)).Nodup →
       ∀ k k', k ≠ k' → ∀ i, i ∈ moduleNodeIds srcDir nodes k →
         i ∉ moduleNodeIds srcDir nodes k') := by
  constructor
  · intro i
    constructor
    · intro hi
      obtain ⟨n, hn, hid⟩ := List.mem_map.mp hi
      exact ⟨module_id srcDir n, mem_moduleKeys.mpr ⟨n, hn, rfl⟩,
             mem_moduleNodeIds.mpr ⟨n, hn, rfl, hid⟩⟩
    · rintro ⟨k, _, hi⟩
      obtain ⟨n, hn, _, hid⟩ := mem_moduleNodeIds.mp hi
      exact List.mem_map.mpr ⟨n, hn, hid⟩
  · intro hnd k k' hkk i hik hik'
    obtain ⟨n, hn, hkn, hin⟩ := mem_moduleNodeIds.mp hik
    obtain ⟨n', hn', hkn', hin'⟩ := mem_moduleNodeIds.mp hik'
    have heq : n = n' := List.inj_on_of_nodup_map hnd hn hn' (hin.trans hin'.symm)
    apply hkk
    rw [← hkn, ← hkn', heq]

/-- C5 witness: on a two-node collection with distinct ids, `c5_partition`
yields coverage of the package id `a.b` and disjointness of module `x`. -/
theorem c5_partition_witness :
    (∃ k ∈ moduleKeys "/s" [pkgNodeOf "a.b", fileNodeOf "/s/x/F.java" "F.java"],
      "a.b" ∈ moduleNodeIds "/s" [pkgNodeOf "a.b", fileNodeOf "/s/x/F.java" "F.java"] k) ∧
    "a.b" ∉ moduleNodeIds "/s" [pkgNodeOf "a.b", fileNodeOf "/s/x/F.java" "F.java"] "x" :=
  ⟨((c5_partition "/s" [pkgNodeOf "a.b", fileNodeOf "/s/x/F.java" "F.java"]).1 "a.b").mp
     (by decide),
   (c5_partition "/s" [pkgNodeOf "a.b", fileNodeOf "/s/x/F.java" "F.java"]).2 (by decide)
     "a" "x" (by decide) "a.b" (by decide)⟩

/-! ## Claim C6 -/

/-- C6, counterexample: a file at `bar/F.java` declaring `package foo`
yields a contains edge from package `foo` (module `foo`) to the file node
(module `bar`); this cross-module edge is dropped from every per-module
output *and* from the aggregate relation list, which keeps only
non-contains edges. -/
theorem c6_counterexample :
    (⟨"foo", "/s/bar/F.java", "contains"⟩ : Edge) ∈
      (run "/s" [⟨"bar/F.java", ParseResult.success "foo" [] []⟩]).edges ∧
    (∀ n ∈ (run "/s" [⟨"bar/F.java", ParseResult.success "foo" [] []⟩]).nodes,
      n.id = "foo" → module_id "/s" n = "foo") ∧
    (∀ n ∈ (run "/s" [⟨"bar/F.java", ParseResult.success "foo" [] []⟩]).nodes,
      n.id = "/s/bar/F.java" → module_id "/s" n = "bar") ∧
    ("foo" : String) ≠ "bar" ∧
    (∀ k ∈ moduleKeys "/s" (run "/s" [⟨"bar/F.java", ParseResult.success "foo" [] []⟩]).nodes,
      (⟨"foo", "/s/bar/F.java", "contains"⟩ : Edge) ∉
        subEdges "/s" (run "/s" [⟨"bar/F.java", ParseResult.success "foo" [] []⟩]).nodes
          (run "/s" [⟨"bar/F.java", ParseResult.success "foo" [] []⟩]).edges k) ∧
    (⟨"foo", "/s/bar/F.java", "contains"⟩ : Edge) ∉
      rels (run "/s" [⟨"bar/F.java", ParseResult.success "foo" [] []⟩]).edges := by
  decide

/-- C6, amended: a *non-contains* edge whose endpoints' nodes resolve to
two different module keys appears in no per-module edge list but does
appear in the aggregate relation list; a cross-module contains edge
appears in neither. -/
theorem c6_cross_module (srcDir : String) (nodes : List Node) (edges : List Edge)
    (e : Edge) (a b : String)
    (he : e ∈ edges) (hk : e.type' ≠ "contains")
    (ha : ∀ n ∈ nodes, n.id = e.source → module_id srcDir n = a)
    (hb : ∀ n ∈ nodes, n.id = e.target → module_id srcDir n = b)
    (hab : a ≠ b) :
    (∀ k, e ∉ subEdges srcDir nodes edges k) ∧ e ∈ rels edges := by
  constructor
  · intro k hmem
    have h1 : e ∈ moduleEdges srcDir nodes edges k := (List.mem_filter.mp hmem).1
    have h2 := List.mem_filter.mp h1
    have h3 : e.source ∈ moduleNodeIds srcDir nodes k ∧
        e.target ∈ moduleNodeIds srcDir nodes k := by simpa using h2.2
    obtain ⟨ns, hns, hkn, hid⟩ := mem_moduleNodeIds.mp h3.1
    obtain ⟨nt, hnt, hkt, hidt⟩ := mem_moduleNodeIds.mp h3.2
    have hka : k = a := by rw [← hkn]; exact ha ns hns hid
    have hkb : k = b := by rw [← hkt]; exact hb nt hnt hidt
    exact hab (hka ▸ hkb)
  · exact List.mem_filter.mpr ⟨he, by simpa using hk⟩

/-- C6 witness: an import edge from the file in module `bar` to the
package `qux.List` in module `qux` is suppressed from every per-module
edge list and kept in the aggregate relation list. -/
theorem c6_cross_module_witness :
    (∀ k, (⟨"/s/bar/F.java", "qux.List", "import"⟩ : Edge) ∉
      subEdges "/s" (run "/s" [⟨"bar/F.java", ParseResult.success "" ["qux.List"] []⟩]).nodes
        (run "/s" [⟨"bar/F.java", ParseResult.success "" ["qux.List"] []⟩]).edges k) ∧
    (⟨"/s/bar/F.java", "qux.List", "import"⟩ : Edge) ∈
      rels (run "/s" [⟨"bar/F.java", ParseResult.success "" ["qux.List"] []⟩]).edges :=
  c6_cross_module "/s" _ _ ⟨"/s/bar/F.java", "qux.List", "import"⟩ "bar" "qux"
    (by decide) (by decide) (by decide) (by decide) (by decide)

/-! ## Claim C4 -/

/-- C4, counterexample: module `m` of a run with a packaged file
`m/F.java` (package `m`) and a malformed file `m/G.java` contains the
parentless package `m`, yet the module-local hierarchy roots also include
the parentless *file* node `/s/m/G.java` (line 206 has no package-kind
preference), whereas re-running the aggregate assembler (§4.3) on the
module's nodes and edges yields only `[m]`. -/
theorem c4_counterexample :
    subHierarchyIds "/s"
      (run "/s" [⟨"m/F.java", ParseResult.success "m" [] []⟩, ⟨"m/G.java", ParseResult.failure⟩]).nodes
      (run "/s" [⟨"m/F.java", ParseResult.success "m" [] []⟩, ⟨"m/G.java", ParseResult.failure⟩]).edges
      "m" = ["m", "/s/m/G.java"] ∧
    rootsOf
      (moduleNodes "/s"
        (run "/s" [⟨"m/F.java", ParseResult.success "m" [] []⟩, ⟨"m/G.java", ParseResult.failure⟩]).nodes "m")
      (moduleEdges "/s"
        (run "/s" [⟨"m/F.java", ParseResult.success "m" [] []⟩, ⟨"m/G.java", ParseResult.failure⟩]).nodes
        (run "/s" [⟨"m/F.java", ParseResult.success "m" [] []⟩, ⟨"m/G.java", ParseResult.failure⟩]).edges
        "m") = ["m"] ∧
    pkgRoots
      (moduleNodes "/s"
        (run "/s" [⟨"m/F.java", ParseResult.success "m" [] []⟩, ⟨"m/G.java", ParseResult.failure⟩]).nodes "m")
      (moduleEdges "/s"
        (run "/s" [⟨"m/F.java", ParseResult.success "m" [] []⟩, ⟨"m/G.java", ParseResult.failure⟩]).nodes
        (run "/s" [⟨"m/F.java", ParseResult.success "m" [] []⟩, ⟨"m/G.java", ParseResult.failure⟩]).edges
        "m") = ["m"] ∧
    kindOf
      (run "/s" [⟨"m/F.java", ParseResult.success "m" [] []⟩, ⟨"m/G.java", ParseResult.failure⟩]).nodes
      "/s/m/G.java" = "file" := by
  decide

/-- C4, amended: the module-local step re-runs only the parent/child
reconstruction of §4.3 — its contains pairs coincide with the assembler's
on the module's nodes and edges — but its roots are *all* module nodes
without a module-local parent, regardless of kind, with no Package-kind
preference step; whenever the module has no parentless package node (the
fallback case of §4.3) the module-local roots coincide with the §4.3
re-run, while in the presence of a parentless package node they may
differ, as `c4_counterexample` shows. -/
theorem c4_module_assembly (srcDir : String) (nodes : List Node) (edges : List Edge)
    (k : String) :
    modPairs srcDir nodes edges k =
      containsPairs (nodeIdsOf (moduleNodes srcDir nodes k))
        (moduleEdges srcDir nodes edges k) ∧
    (pkgRoots (moduleNodes srcDir nodes k) (moduleEdges srcDir nodes edges k) = [] →
      subHierarchyIds srcDir nodes edges k =
        rootsOf (moduleNodes srcDir nodes k) (moduleEdges srcDir nodes edges k)) := by
  have hpairs : modPairs srcDir nodes edges k =
      containsPairs (nodeIdsOf (moduleNodes srcDir nodes k))
        (moduleEdges srcDir nodes edges k) := by
    unfold modPairs containsPairs
    congr 1
    apply List.filter_congr
    intro e hme
    have h2 := List.mem_filter.mp hme
    have h3 : e.source ∈ moduleNodeIds srcDir nodes k ∧
        e.target ∈ moduleNodeIds srcDir nodes k := by simpa using h2.2
    have hs : e.source ∈ nodeIdsOf (moduleNodes srcDir nodes k) := h3.1
    have ht : e.target ∈ nodeIdsOf (moduleNodes srcDir nodes k) := h3.2
    simp [hs, ht]
  refine ⟨hpairs, fun hE => ?_⟩
  unfold rootsOf
  dsimp only
  rw [hE]
  simp only [List.isEmpty_nil, if_true]
  unfold subHierarchyIds
  rw [hpairs]
  rfl

/-- C4 witness: a module with no package node (a single malformed file),
where the module-local roots agree with re-running the §4.3 assembler. -/
theorem c4_module_assembly_witness :
    modPairs "/s" (run "/s" [⟨"x/F.java", ParseResult.failure⟩]).nodes
      (run "/s" [⟨"x/F.java", ParseResult.failure⟩]).edges "x" =
      containsPairs
        (nodeIdsOf (moduleNodes "/s" (run "/s" [⟨"x/F.java", ParseResult.failure⟩]).nodes "x"))
        (moduleEdges "/s" (run "/s" [⟨"x/F.java", ParseResult.failure⟩]).nodes
          (run "/s" [⟨"x/F.java", ParseResult.failure⟩]).edges "x") ∧
    subHierarchyIds "/s" (run "/s" [⟨"x/F.java", ParseResult.failure⟩]).nodes
      (run "/s" [⟨"x/F.java", ParseResult.failure⟩]).edges "x" =
      rootsOf (moduleNodes "/s" (run "/s" [⟨"x/F.java", ParseResult.failure⟩]).nodes "x")
        (moduleEdges "/s" (run "/s" [⟨"x/F.java", ParseResult.failure⟩]).nodes
          (run "/s" [⟨"x/F.java", ParseResult.failure⟩]).edges "x") :=
  ⟨(c4_module_assembly "/s" _ _ "x").1, (c4_module_assembly "/s" _ _ "x").2 (by decide)⟩

/-! ## The shared class identity space -/

/-- Invariant: the class registry holds exactly the ids of the class-space
nodes appended so far, and those ids are pairwise distinct. -/
def ClsInv (st : GState) : Prop :=
  (∀ i, i ∈ st.seen.cls ↔
     ∃ n ∈ st.nodes, (n.type' = "class" ∨ n.type' = "interface") ∧ n.id = i) ∧
  (classIds st.nodes).Nodup

lemma classIds_append (l1 l2 : List Node) :
    classIds (l1 ++ l2) = classIds l1 ++ classIds l2 := by
  simp [classIds]

lemma clsInv_append_nonclass {st st' : GState} (h : ClsInv st) (ns : List Node)
    (hn : st'.nodes = st.nodes ++ ns) (hc : st'.seen.cls = st.seen.cls)
    (hns : ∀ n ∈ ns, ¬(n.type' = "class" ∨ n.type' = "interface")) : ClsInv st' := by
  constructor
  · intro i
    rw [hc, hn, h.1 i]
    constructor
    · rintro ⟨n, hmem, hcs, hid⟩
      exact ⟨n, List.mem_append_left _ hmem, hcs, hid⟩
    · rintro ⟨n, hmem, hcs, hid⟩
      rcases List.mem_append.mp hmem with h1 | h1
      · exact ⟨n, h1, hcs, hid⟩
      · exact absurd hcs (hns n h1)
  · rw [hn, classIds_append]
    have hnil : classIds ns = [] := by
      unfold classIds
      rw [List.filter_eq_nil_iff.mpr]
      · rfl
      · intro n hmem
        simpa using hns n hmem
    rw [hnil, List.append_nil]
    exact h.2

lemma clsInv_register {st st' : GState} (h : ClsInv st) (n : Node)
    (hn : st'.nodes = st.nodes ++ [n]) (hc : st'.seen.cls = st.seen.cls ++ [n.id])
    (hcs : n.type' = "class" ∨ n.type' = "interface")
    (hnotin : n.id ∉ st.seen.cls) : ClsInv st' := by
  have hsub : ∀ i, i ∈ classIds st.nodes → i ∈ st.seen.cls := by
    intro i hmem
    unfold classIds at hmem
    obtain ⟨n', hn', hid⟩ := List.mem_map.mp hmem
    have h2 := List.mem_filter.mp hn'
    exact (h.1 i).mpr ⟨n', h2.1, by simpa using h2.2, hid⟩
  constructor
  · intro i
    rw [hc, hn, List.mem_append, h.1 i]
    constructor
    · rintro (⟨n', hmem, hcs', hid⟩ | hone)
      · exact ⟨n', List.mem_append_left _ hmem, hcs', hid⟩
      · have : i = n.id := by simpa using hone
        exact ⟨n, List.mem_append_right _ (List.mem_singleton_self n), hcs, this.symm⟩
    · rintro ⟨n', hmem, hcs', hid⟩
      rcases List.mem_append.mp hmem with h1 | h1
      · exact Or.inl ⟨n', h1, hcs', hid⟩
      · have : n' = n := List.mem_singleton.mp h1
        subst this
        exact Or.inr (by simpa using hid.symm)
  · rw [hn, classIds_append]
    have hone : classIds [n] = [n.id] := by
      rcases hcs with hcase | hcase <;> simp [classIds, List.filter_singleton, hcase]
    rw [hone]
    rw [List.nodup_append]
    refine ⟨h.2, List.nodup_singleton _, ?_⟩
    intro i hi hid
    have : i = n.id := List.mem_singleton.mp hid
    exact hnotin (this ▸ hsub i hi)

lemma nonclass_singleton {n : Node} (h : ¬(n.type' = "class" ∨ n.type' = "interface")) :
    ∀ n' ∈ [n], ¬(n'.type' = "class" ∨ n'.type' = "interface") := by
  intro n' hn'
  rw [List.mem_singleton] at hn'
  subst hn'
  exact h

lemma clsInv_edgeApp (e : Edge) {st : GState} (h : ClsInv st) :
    ClsInv { st with edges := st.edges ++ [e] } :=
  clsInv_append_nonclass h [] (by simp) rfl (by simp)

lemma clsInv_foldl {α : Type} (step : GState → α → GState) (l : List α)
    (h : ∀ x ∈ l, ∀ st, ClsInv st → ClsInv (step st x)) :
    ∀ st, ClsInv st → ClsInv (l.foldl step st) := by
  induction l with
  | nil => intro st hst; exact hst
  | cons x xs ih =>
      intro st hst
      rw [List.foldl_cons]
      exact ih (fun y hy => h y (List.mem_cons_of_mem _ hy)) _
        (h x (List.mem_cons_self _ _) st hst)

lemma clsInv_doFile (path fname : String) (st : GState) (h : ClsInv st) :
    ClsInv (doFile path fname st) := by
  unfold doFile
  split
  · exact h
  · exact clsInv_append_nonclass h [fileNodeOf path fname] rfl rfl
      (nonclass_singleton (by simp [fileNodeOf]))

lemma clsInv_doPkg (pkg path : String) (st : GState) (h : ClsInv st) :
    ClsInv (doPkg pkg path st) := by
  unfold doPkg
  split
  · exact h
  · dsimp only
    split
    · exact clsInv_append_nonclass h [] (by simp) rfl (by simp)
    · exact clsInv_append_nonclass h [pkgNodeOf pkg] rfl rfl
        (nonclass_singleton (by simp [pkgNodeOf]))

lemma clsInv_doImport (path : String) (st : GState) (imp : String) (h : ClsInv st) :
    ClsInv (doImport path st imp) := by
  unfold doImport
  dsimp only
  split
  · exact clsInv_append_nonclass h [] (by simp) rfl (by simp)
  · exact clsInv_append_nonclass h [pkgNodeOf imp] rfl rfl
      (nonclass_singleton (by simp [pkgNodeOf]))

lemma clsInv_doStub (pkg fqcn sk ek : String) (hsk : sk = "class" ∨ sk = "interface")
    (st : GState) (s : String) (h : ClsInv st) : ClsInv (doStub pkg fqcn sk ek st s) := by
  unfold doStub
  dsimp only
  split
  · exact clsInv_append_nonclass h [] (by simp) rfl (by simp)
  · rename_i hnotin
    refine clsInv_register h (stubNodeOf pkg s sk) rfl rfl ?_ hnotin
    simpa [stubNodeOf] using hsk

lemma clsInv_doField (fqcn : String) (f : FieldDecl) (st : GState) (h : ClsInv st) :
    ClsInv (doField fqcn f st) := by
  unfold doField
  refine clsInv_foldl _ f.declarators ?_ st h
  intro d _ st hst
  dsimp only
  split
  · exact clsInv_append_nonclass hst [] (by simp) rfl (by simp)
  · exact clsInv_append_nonclass hst [fieldNodeOf fqcn f d] rfl rfl
      (nonclass_singleton (by simp [fieldNodeOf]))

lemma clsInv_doMethod (fqcn : String) (m : MethodDecl) (st : GState) (h : ClsInv st) :
    ClsInv (doMethod fqcn m st) := by
  unfold doMethod
  dsimp only
  have h2 : ClsInv (if fqcn ++ "." ++ methodSig m ∈ st.seen.method then st
      else { st with nodes := st.nodes ++ [methodNodeOf fqcn m],
                     seen := { st.seen with
                               method := st.seen.method ++ [fqcn ++ "." ++ methodSig m] } }) := by
    split
    · exact h
    · exact clsInv_append_nonclass h [methodNodeOf fqcn m] rfl rfl
        (nonclass_singleton (by simp [methodNodeOf]))
  cases m.body with
  | none => exact clsInv_append_nonclass h2 [] (by simp) rfl (by simp)
  | some invs =>
      refine clsInv_foldl _ invs ?_ _ (clsInv_append_nonclass h2 [] (by simp) rfl (by simp))
      intro inv _ st hst
      exact clsInv_append_nonclass hst [] (by simp) rfl (by simp)

lemma clsInv_doMember (fqcn : String) (st : GState) (m : Member) (h : ClsInv st) :
    ClsInv (doMember fqcn st m) := by
  cases m with
  | fieldM f => exact clsInv_doField fqcn f st h
  | methodM m => exact clsInv_doMethod fqcn m st h
  | otherM => exact h

lemma clsInv_doType (pkg path : String) (st : GState) (t : TypeDecl) (h : ClsInv st) :
    ClsInv (doType pkg path st t) := by
  unfold doType
  dsimp only
  apply clsInv_foldl _ t.body (fun mm _ st hst => clsInv_doMember _ st mm hst)
  apply clsInv_foldl _ t.impls
    (fun s _ st hst => clsInv_doStub pkg _ "interface" "implements" (Or.inr rfl) st s hst)
  have hguard : ClsInv (if qualify pkg t.name ∈ st.seen.cls then st
      else { st with nodes := st.nodes ++ [classEntry pkg path t],
                     seen := { st.seen with cls := st.seen.cls ++ [qualify pkg t.name] } }) := by
    split
    · exact h
    · rename_i hnotin
      exact clsInv_register h (classEntry pkg path t) rfl rfl (Or.inl rfl) hnotin
  cases t.ext with
  | noneE => exact clsInv_edgeApp _ hguard
  | singleE s =>
      exact clsInv_doStub pkg _ "class" "extends" (Or.inl rfl) _ s (clsInv_edgeApp _ hguard)
  | multiE l =>
      exact clsInv_foldl _ l
        (fun s _ st hst => clsInv_doStub pkg _ "class" "extends" (Or.inl rfl) st s hst) _
        (clsInv_edgeApp _ hguard)

lemma clsInv_processFile (srcDir : String) (st : GState) (jf : JavaFile) (h : ClsInv st) :
    ClsInv (processFile srcDir st jf) := by
  unfold processFile
  refine clsInv_foldl _ _ (fun t _ st hst => clsInv_doType _ _ st t hst) _ ?_
  refine clsInv_foldl _ _ (fun imp _ st hst => clsInv_doImport _ st imp hst) _ ?_
  exact clsInv_doPkg _ _ _ (clsInv_doFile _ _ _ h)

lemma clsInv_run (srcDir : String) (files : List JavaFile) : ClsInv (run srcDir files) := by
  unfold run
  refine clsInv_foldl _ files (fun jf _ st hst => clsInv_processFile srcDir st jf hst) _ ?_
  exact ⟨fun i => by simp, by simp [classIds]⟩

/-! ## Claim C9 -/

/-- C9: classes, interfaces, and inheritance-synthesized stubs share one
identity space: in every run, the ids of the class/interface-kind node
records are pairwise distinct — once an id is registered, no second node
record with that id is ever appended, so only the first-seen record is
kept. -/
theorem c9_class_identity (srcDir : String) (files : List JavaFile) :
    (classIds (run srcDir files).nodes).Nodup :=
  (clsInv_run srcDir files).2

/-! ## Claim C8: membership of the qualified edges and nodes -/

lemma doStub_edge_mem (pkg fqcn sk ek : String) (st : GState) (s : String) :
    (⟨fqcn, qualify pkg s, ek⟩ : Edge) ∈ (doStub pkg fqcn sk ek st s).edges := by
  unfold doStub
  dsimp only
  split <;> simp

lemma foldl_edge_via {α : Type} (step : GState → α → GState)
    (hg : ∀ x, Grows (fun st => step st x)) (l : List α) (x : α) (hx : x ∈ l) (e : Edge)
    (hstep : ∀ st, e ∈ (step st x).edges) :
    ∀ st, e ∈ (l.foldl step st).edges := by
  obtain ⟨u, v, rfl⟩ := List.append_of_mem hx
  intro st
  rw [List.foldl_append, List.foldl_cons]
  exact (grows_foldl step v (fun y _ => hg y)).edges_mono (hstep _)

lemma foldl_cls_via {α : Type} (step : GState → α → GState)
    (hg : ∀ x, Grows (fun st => step st x)) (l : List α) (x : α) (hx : x ∈ l) (i : String)
    (hstep : ∀ st, i ∈ (step st x).seen.cls) :
    ∀ st, i ∈ (l.foldl step st).seen.cls := by
  obtain ⟨u, v, rfl⟩ := List.append_of_mem hx
  intro st
  rw [List.foldl_append, List.foldl_cons]
  exact (grows_foldl step v (fun y _ => hg y)).cls_mono (hstep _)

lemma doType_contains_mem (pkg path : String) (st : GState) (t : TypeDecl) :
    (⟨path, qualify pkg t.name, "contains"⟩ : Edge) ∈ (doType pkg path st t).edges := by
  unfold doType
  dsimp only
  apply (grows_foldl (doMember (qualify pkg t.name)) t.body
    (fun m _ => grows_doMember _ m)).edges_mono
  apply (grows_foldl _ t.impls
    (fun s _ => grows_doStub pkg (qualify pkg t.name) "interface" "implements" s)).edges_mono
  cases t.ext with
  | noneE => simp
  | singleE s =>
      apply (grows_doStub pkg (qualify pkg t.name) "class" "extends" s).edges_mono
      simp
  | multiE l =>
      apply (grows_foldl _ l
        (fun s _ => grows_doStub pkg (qualify pkg t.name) "class" "extends" s)).edges_mono
      simp

lemma doType_extends_mem (pkg path : String) (st : GState) (t : TypeDecl) (s : String)
    (hs : s ∈ extendsList t.ext) :
    (⟨qualify pkg t.name, qualify pkg s, "extends"⟩ : Edge) ∈ (doType pkg path st t).edges := by
  obtain ⟨tn, text, timpls, tbody⟩ := t
  unfold doType
  dsimp only at hs ⊢
  apply (grows_foldl (doMember (qualify pkg tn)) tbody
    (fun m _ => grows_doMember _ m)).edges_mono
  apply (grows_foldl _ timpls
    (fun s' _ => grows_doStub pkg (qualify pkg tn) "interface" "implements" s')).edges_mono
  cases text with
  | noneE => simp [extendsList] at hs
  | singleE s' =>
      have hss : s = s' := by simpa [extendsList] using hs
      subst hss
      exact doStub_edge_mem pkg (qualify pkg tn) "class" "extends" _ s
  | multiE l =>
      simp only [extendsList] at hs
      exact foldl_edge_via _ (fun y => grows_doStub pkg (qualify pkg tn) "class" "extends" y)
        l s hs _ (fun st => doStub_edge_mem pkg (qualify pkg tn) "class" "extends" st s) _

lemma doType_implements_mem (pkg path : String) (st : GState) (t : TypeDecl) (s : String)
    (hs : s ∈ t.impls) :
    (⟨qualify pkg t.name, qualify pkg s, "implements"⟩ : Edge) ∈ (doType pkg path st t).edges := by
  unfold doType
  dsimp only
  apply (grows_foldl (doMember (qualify pkg t.name)) t.body
    (fun m _ => grows_doMember _ m)).edges_mono
  exact foldl_edge_via _
    (fun y => grows_doStub pkg (qualify pkg t.name) "interface" "implements" y)
    t.impls s hs _
    (fun st => doStub_edge_mem pkg (qualify pkg t.name) "interface" "implements" st s) _

lemma doType_seen_cls (pkg path : String) (st : GState) (t : TypeDecl) :
    qualify pkg t.name ∈ (doType pkg path st t).seen.cls := by
  unfold doType
  dsimp only
  apply (grows_foldl (doMember (qualify pkg t.name)) t.body
    (fun m _ => grows_doMember _ m)).cls_mono
  apply (grows_foldl _ t.impls
    (fun s _ => grows_doStub pkg (qualify pkg t.name) "interface" "implements" s)).cls_mono
  have hbase : qualify pkg t.name ∈
      (if qualify pkg t.name ∈ st.seen.cls then st
       else { st with nodes := st.nodes ++ [classEntry pkg path t],
                      seen := { st.seen with
                                cls := st.seen.cls ++ [qualify pkg t.name] } }).seen.cls := by
    split
    · rename_i hc; exact hc
    · simp
  cases t.ext with
  | noneE => exact hbase
  | singleE s =>
      apply (grows_doStub pkg (qualify pkg t.name) "class" "extends" s).cls_mono
      exact hbase
  | multiE l =>
      apply (grows_foldl _ l
        (fun s _ => grows_doStub pkg (qualify pkg t.name) "class" "extends" s)).cls_mono
      exact hbase

/-- C8: for every processed type declaration, the node id is the simple
name qualified by the compilation unit's package (`simpleName` when the
package is empty, `pkg ++ "." ++ simpleName` otherwise), and the same
qualification with the *current* package is applied to every extends and
implements reference. -/
theorem c8_qualification (srcDir : String) (files : List JavaFile) (jf : JavaFile)
    (pkg : String) (imports : List String) (types : List TypeDecl) (t : TypeDecl)
    (hjf : jf ∈ files) (hp : jf.parsed = ParseResult.success pkg imports types)
    (ht : t ∈ types) :
    (∃ n ∈ (run srcDir files).nodes, n.id = qualify pkg t.name) ∧
    (⟨srcDir ++ "/" ++ jf.rel, qualify pkg t.name, "contains"⟩ : Edge) ∈
      (run srcDir files).edges ∧
    (∀ s ∈ extendsList t.ext,
      (⟨qualify pkg t.name, qualify pkg s, "extends"⟩ : Edge) ∈ (run srcDir files).edges) ∧
    (∀ s ∈ t.impls,
      (⟨qualify pkg t.name, qualify pkg s, "implements"⟩ : Edge) ∈ (run srcDir files).edges) := by
  obtain ⟨l1, l2, rfl⟩ := List.append_of_mem hjf
  have hrw : run srcDir (l1 ++ jf :: l2) =
      l2.foldl (processFile srcDir) (processFile srcDir (run srcDir l1) jf) := by
    rw [run_append, List.foldl_cons]
  have hpf : processFile srcDir (run srcDir l1) jf =
      types.foldl (doType pkg (srcDir ++ "/" ++ jf.rel))
        (imports.foldl (doImport (srcDir ++ "/" ++ jf.rel))
          (doPkg pkg (srcDir ++ "/" ++ jf.rel)
            (doFile (srcDir ++ "/" ++ jf.rel) (lastSeg jf.rel) (run srcDir l1)))) := by
    unfold processFile
    rw [hp]
    rfl
  have hgl2 : Grows (fun st => l2.foldl (processFile srcDir) st) :=
    grows_foldl _ l2 (fun y _ => grows_processFile srcDir y)
  refine ⟨?_, ?_, ?_, ?_⟩
  · have hcls : qualify pkg t.name ∈ (run srcDir (l1 ++ jf :: l2)).seen.cls := by
      rw [hrw]
      apply hgl2.cls_mono
      rw [hpf]
      exact foldl_cls_via (doType pkg (srcDir ++ "/" ++ jf.rel))
        (fun x => grows_doType _ _ x) types t ht _
        (fun st => doType_seen_cls _ _ st t) _
    obtain ⟨n, hn, _, hid⟩ := ((clsInv_run srcDir (l1 ++ jf :: l2)).1 _).mp hcls
    exact ⟨n, hn, hid⟩
  · rw [hrw]
    apply hgl2.edges_mono
    rw [hpf]
    exact foldl_edge_via _ (fun x => grows_doType _ _ x) types t ht _
      (fun st => doType_contains_mem _ _ st t) _
  · intro s hs
    rw [hrw]
    apply hgl2.edges_mono
    rw [hpf]
    exact foldl_edge_via _ (fun x => grows_doType _ _ x) types t ht _
      (fun st => doType_extends_mem _ _ st t s hs) _
  · intro s hs
    rw [hrw]
    apply hgl2.edges_mono
    rw [hpf]
    exact foldl_edge_via _ (fun x => grows_doType _ _ x) types t ht _
      (fun st => doType_implements_mem _ _ st t s hs) _

/-- C8 witness: the spec's concrete scenario (`package com.acme; class Foo
extends Base implements Runnable`). -/
theorem c8_qualification_witness :
    (∃ n ∈ (run "/s" [⟨"com/acme/Foo.java", ParseResult.success "com.acme" []
        [⟨"Foo", ExtendsClause.singleE "Base", ["Runnable"], []⟩]⟩]).nodes,
      n.id = qualify "com.acme" "Foo") ∧
    (⟨"/s" ++ "/" ++ "com/acme/Foo.java", qualify "com.acme" "Foo", "contains"⟩ : Edge) ∈
      (run "/s" [⟨"com/acme/Foo.java", ParseResult.success "com.acme" []
        [⟨"Foo", ExtendsClause.singleE "Base", ["Runnable"], []⟩]⟩]).edges ∧
    (∀ s ∈ extendsList (ExtendsClause.singleE "Base"),
      (⟨qualify "com.acme" "Foo", qualify "com.acme" s, "extends"⟩ : Edge) ∈
        (run "/s" [⟨"com/acme/Foo.java", ParseResult.success "com.acme" []
          [⟨"Foo", ExtendsClause.singleE "Base", ["Runnable"], []⟩]⟩]).edges) ∧
    (∀ s ∈ (["Runnable"] : List String),
      (⟨qualify "com.acme" "Foo", qualify "com.acme" s, "implements"⟩ : Edge) ∈
        (run "/s" [⟨"com/acme/Foo.java", ParseResult.success "com.acme" []
          [⟨"Foo", ExtendsClause.singleE "Base", ["Runnable"], []⟩]⟩]).edges) :=
  c8_qualification "/s" _ _ "com.acme" [] _ ⟨"Foo", ExtendsClause.singleE "Base", ["Runnable"], []⟩
    (List.mem_singleton_self _) rfl (List.mem_singleton_self _)

end GraphGen
